import Mathlib

/-!
# King sprite engine: font metrics, frame loop, input polling, texture loading

A shallow embedding of `Engine.cpp` and `SdlSurface.cpp`.

Conventions of the embedding:

* `float` values are modelled by rationals (`ℚ`).  The frame timing
  (`Implementation.new`, `iteration`) rounds every conversion and operation to
  binary32 with `roundF32`.  The text width and the mouse coordinates use exact
  arithmetic: the conversions there are exact below `2^24`.
* `int` is modelled by `Int` with an explicit two's-complement wrap to 32 bits
  (`wrapInt32`) wherever the source performs arithmetic on it.
* Dereferencing a past-the-end iterator is modelled by `none`.
* Calls into SDL / OpenGL / the sprite batch are recorded in an effect trace.
-/

namespace King

/-! ## Constants of `Engine.cpp` -/

def WindowWidth : Int := 800
def WindowHeight : Int := 600
def MaxFrameTicks : ℚ := 300
def TextScale : ℚ := 1 / 2

/-! ## Binary32 rounding -/

/-- Rounding of a rational to the nearest integer, ties to the even one. -/
def roundHalfEven (y : ℚ) : ℤ :=
  let f := ⌊y⌋
  let r := y - (f : ℚ)
  if r < 1 / 2 then f
  else if 1 / 2 < r then f + 1
  else if f % 2 = 0 then f
  else f + 1

/-- The exponent of the spacing of binary32 values around `x`: 23 below the
binade of `x` (24-bit significand), and `-149` throughout the subnormal range. -/
def ulpExponent (x : ℚ) : ℤ := max (Int.log 2 |x| - 23) (-149)

/-- The binary32 value nearest to `x`, ties to even: the result of a `float`
operation whose exact result is `x`. Overflow to infinity (from `2^128` on) is
not modelled; the engine rounds tick counts below `2^32`, their differences and
products with `0.001f`. -/
def roundF32 (x : ℚ) : ℚ :=
  (roundHalfEven (x / (2 : ℚ) ^ ulpExponent x) : ℚ) * (2 : ℚ) ^ ulpExponent x

/-! ## Font metrics -/

/-- Modelled from the spec: the `Glyph` record of `Font.h` (character code,
advance width, atlas offset and size); the field names other than `id` are the
ones `Engine::Write` reads. -/
structure Glyph where
  id : Int
  x : Int
  y : Int
  width : Int
  height : Int
  xoffset : Int
  yoffset : Int
  advance : Int
  deriving DecidableEq, Repr

/-- Modelled from the spec: the comparison `glyph < code` of `Font.h`, which
orders a glyph against a character code by the glyph's character code. -/
def Glyph.ltCode (g : Glyph) (c : Int) : Bool := decide (g.id < c)

/-- Modelled from the spec: the comparison `code < glyph` of `Font.h`. -/
def Glyph.codeLt (c : Int) (g : Glyph) : Bool := decide (c < g.id)

/-- The loop of `std::lower_bound` on the index range `[first, first + count)`:
halve `count`, probe the middle element, keep the right or the left half.
`fuel` bounds the number of iterations. -/
def lowerBoundLoop (Font : List Glyph) (value : Int) : Nat → Nat → Nat → Nat
  | 0, first, _ => first
  | fuel + 1, first, count =>
    if count = 0 then first
    else
      let step := count / 2
      let it := first + step
      match Font[it]? with
      | some g =>
        if g.ltCode value then lowerBoundLoop Font value fuel (it + 1) (count - (step + 1))
        else lowerBoundLoop Font value fuel first step
      | none => first

/-- The call `std::lower_bound(std::begin(Font), std::end(Font), value)`, as an
index into the table (`Font.length` is the end position). -/
def lower_bound (Font : List Glyph) (value : Int) : Nat :=
  lowerBoundLoop Font value Font.length 0 Font.length

/-- The function `FindGlyph(char c)`; the table `Font` of `Font.h` is a parameter.
The second operand of `||` is evaluated only when `found` is not the end. -/
def FindGlyph (Font : List Glyph) (c : Int) : Option Glyph :=
  let found := lower_bound Font c
  let found :=
    if found == Font.length ||
        (match Font[found]? with
         | some g => g.codeLt c
         | none => true)
    then lower_bound Font 95
    else found
  Font[found]?

/-- Two's-complement wrap of an integer to the 32-bit `int` range. -/
def wrapInt32 (n : Int) : Int := (n + 2147483648) % 4294967296 - 2147483648

/-- The loop of `CalculateStringWidth`: `text` is the character buffer, read up
to the first NUL (the end of the list stands for the terminating NUL);
`advance` is the `int` accumulator. -/
def advanceLoop (Font : List Glyph) : List Int → Int → Option Int
  | [], advance => some advance
  | c :: text, advance =>
    if c = 0 then some advance
    else
      match FindGlyph Font c with
      | some g => advanceLoop Font text (wrapInt32 (advance + g.advance))
      | none => none

/-- The method `Engine::CalculateStringWidth(const char* text)`. -/
def CalculateStringWidth (Font : List Glyph) (text : List Int) : Option ℚ :=
  match advanceLoop Font text 0 with
  | some advance => some ((advance : ℚ) * TextScale)
  | none => none

/-! ## Engine state, events and effects -/

/-- The enum `Engine::Sprite` (without the count `SPRITE_MAX`). -/
inductive Sprite
  | SPRITE_CELL | SPRITE_CHAR | SPRITE_BLUE | SPRITE_GREEN | SPRITE_PURPLE
  | SPRITE_RED | SPRITE_YELLOW | SPRITE_CYAN | SPRITE_BLACK | SPRITE_WHITE
  deriving DecidableEq, Repr

/-- The enum `Engine::Image` (without the count `IMAGE_MAX`). -/
inductive Image
  | IMAGE_BACKGROUND | IMAGE_DIAMONDS | IMAGE_TEXT
  deriving DecidableEq, Repr

/-- The sprite instances held by `Engine::Implementation`. -/
inductive InstanceRef
  | mBackground (i : Nat)
  | mDiamonds (i : Nat)
  | mText (i : Nat)
  | mCell
  deriving DecidableEq, Repr

/-- A `glm::mat4` built by the engine, kept symbolic. -/
inductive Mat4
  | identity
  | translate (m : Mat4) (x y z : ℚ)
  | rotate (m : Mat4) (angle x y z : ℚ)
  deriving DecidableEq, Repr

/-- A call on one of the sprite batches `mBatches[batch]`. -/
inductive BatchCall
  | updateInstance (batch : Image) (target : InstanceRef)
      (position : ℚ × ℚ) (size : ℚ × ℚ) (rotation : ℚ)
  | flushBuffers (batch : Image)
  | draw (batch : Image)
  deriving DecidableEq, Repr

/-- An observable action of the engine, in program order. -/
inductive Effect
  | showWindow
  | swapWindow
  | clearDepth
  | clearColor
  | viewport
  | pollEvents (drained : Nat)
  | update (lastFrameSeconds : ℚ)
  | batch (call : BatchCall)
  deriving DecidableEq, Repr

/-- The fields of `SDL_Event` that `ParseEvents` reads. -/
structure SDL_Event where
  type : Nat
  motion_x : Int
  motion_y : Int
  deriving DecidableEq, Repr

/-- Event type code `SDL_QUIT` of SDL2 (`SDL_events.h`). -/
def SDL_QUIT : Nat := 0x100
/-- Event type code `SDL_KEYDOWN` of SDL2. -/
def SDL_KEYDOWN : Nat := 0x300
/-- Event type code `SDL_MOUSEMOTION` of SDL2. -/
def SDL_MOUSEMOTION : Nat := 0x400
/-- Event type code `SDL_MOUSEBUTTONDOWN` of SDL2. -/
def SDL_MOUSEBUTTONDOWN : Nat := 0x401
/-- Event type code `SDL_MOUSEBUTTONUP` of SDL2. -/
def SDL_MOUSEBUTTONUP : Nat := 0x402

/-- The data members of `Engine::Implementation` that the frame loop and the
input accessors touch; `mUpdater` records whether the pointer is non-null. -/
structure Implementation where
  mElapsedTicks : ℚ
  mLastFrameSeconds : ℚ
  mUpdater : Bool
  mQuit : Bool
  mMouseX : ℚ
  mMouseY : ℚ
  mMouseButtonDown : Bool
  deriving DecidableEq, Repr

/-- The constructor `Implementation()`; `ticks` is the reading of `SDL_GetTicks()`. -/
def Implementation.new (ticks : Nat) : Implementation :=
  { mElapsedTicks := roundF32 (ticks : ℚ)
    mLastFrameSeconds := roundF32 (1 / 60)
    mUpdater := false
    mQuit := false
    mMouseX := (WindowWidth : ℚ) * (1 / 2)
    mMouseY := (WindowHeight : ℚ) * (1 / 2)
    mMouseButtonDown := false }

/-- The accessor `Engine::GetLastFrameSeconds()`. -/
def GetLastFrameSeconds (s : Implementation) : ℚ := s.mLastFrameSeconds
/-- The accessor `Engine::GetMouseX()`. -/
def GetMouseX (s : Implementation) : ℚ := s.mMouseX
/-- The accessor `Engine::GetMouseY()`. -/
def GetMouseY (s : Implementation) : ℚ := s.mMouseY
/-- The accessor `Engine::GetMouseButtonDown()`. -/
def GetMouseButtonDown (s : Implementation) : Bool := s.mMouseButtonDown

/-- The method `Engine::Quit()`. -/
def Quit (s : Implementation) : Implementation := { s with mQuit := true }

/-- The body of the `switch` in `ParseEvents`, for one polled event. -/
def handleEvent (s : Implementation) (event : SDL_Event) : Implementation :=
  if event.type = SDL_QUIT ∨ event.type = SDL_KEYDOWN then { s with mQuit := true }
  else if event.type = SDL_MOUSEBUTTONDOWN then { s with mMouseButtonDown := true }
  else if event.type = SDL_MOUSEBUTTONUP then { s with mMouseButtonDown := false }
  else if event.type = SDL_MOUSEMOTION then
    { s with mMouseX := (event.motion_x : ℚ), mMouseY := (event.motion_y : ℚ) }
  else s

/-- The method `Implementation::ParseEvents()`; `pending` is the queue that
`SDL_PollEvent` hands out, oldest first, until it is empty. -/
def ParseEvents (s : Implementation) (pending : List SDL_Event) : Implementation :=
  pending.foldl handleEvent s

/-- The method `Engine::Render(Sprite, const glm::mat4&)`: the batch calls it issues. -/
def Render (_texture : Sprite) (_transform : Mat4) : List BatchCall :=
  let sprte_size : Int := 64
  let sprite_position : ℚ × ℚ :=
    (((WindowWidth - sprte_size : Int) : ℚ) * (1 / 2),
     ((WindowHeight - sprte_size : Int) : ℚ) * (1 / 2))
  let sprite_rotation : ℚ := 45
  [ BatchCall.updateInstance Image.IMAGE_BACKGROUND InstanceRef.mCell sprite_position
      ((sprte_size : ℚ), (sprte_size : ℚ)) sprite_rotation,
    BatchCall.flushBuffers Image.IMAGE_BACKGROUND,
    BatchCall.draw Image.IMAGE_BACKGROUND ]

/-- The method `Engine::Render(Sprite, float x, float y, float rotation)`. -/
def RenderAt (texture : Sprite) (x y rotation : ℚ) : List BatchCall :=
  let transformation := Mat4.identity
  let transformation := Mat4.translate transformation x y 0
  let transformation := Mat4.rotate transformation rotation 0 0 1
  Render texture transformation

/-- What the update callback does with the engine during one `Update()`. -/
inductive EngineCall
  | Quit
  | Render (texture : Sprite) (transform : Mat4)
  | RenderAt (texture : Sprite) (x y rotation : ℚ)
  | Write (text : List Int) (transform : Mat4)
  | WriteAt (text : List Int) (x y rotation : ℚ)
  deriving DecidableEq, Repr

/-- One engine call made from the callback: new state and effects. `Write`
draws nothing in this version of the engine. -/
def performCall (s : Implementation) : EngineCall → Implementation × List Effect
  | EngineCall.Quit => (Quit s, [])
  | EngineCall.Render texture transform => (s, (Render texture transform).map Effect.batch)
  | EngineCall.RenderAt texture x y rotation =>
    (s, (RenderAt texture x y rotation).map Effect.batch)
  | EngineCall.Write _ _ => (s, [])
  | EngineCall.WriteAt _ _ _ _ => (s, [])

/-- The engine calls of one `Update()`, in order. -/
def performCalls : Implementation → List EngineCall → Implementation × List Effect
  | s, [] => (s, [])
  | s, call :: calls =>
    let r := performCall s call
    let r2 := performCalls r.1 calls
    (r2.1, r.2 ++ r2.2)

/-- What the environment supplies to one iteration of the frame loop: the
pending events, the reading of `SDL_GetTicks()` (a `Uint32` millisecond count),
and the engine calls that the update callback makes when invoked. -/
structure Frame where
  events : List SDL_Event
  ticks : Nat
  calls : List EngineCall
  deriving DecidableEq, Repr

/-- The function `std::min(a, b)`. -/
def stdMin (a b : ℚ) : ℚ := if b < a then b else a

/-- One pass through the body of the `while` loop of `Implementation::Start`. -/
def iteration (s : Implementation) (f : Frame) : Implementation × List Effect :=
  let pre := [Effect.swapWindow, Effect.clearDepth, Effect.clearColor, Effect.viewport,
    Effect.pollEvents f.events.length]
  let s := ParseEvents s f.events
  let currentTicks : ℚ := roundF32 (f.ticks : ℚ)
  let lastFrameTicks := roundF32 (currentTicks - s.mElapsedTicks)
  let s := { s with mElapsedTicks := currentTicks }
  let lastFrameTicks := stdMin lastFrameTicks MaxFrameTicks
  let s := { s with mLastFrameSeconds := roundF32 (lastFrameTicks * roundF32 (1 / 1000)) }
  if s.mUpdater then
    let r := performCalls s f.calls
    (r.1, pre ++ Effect.update s.mLastFrameSeconds :: r.2)
  else (s, pre)

/-- The result of running the frame loop on a script of frames. -/
structure Run where
  state : Implementation
  trace : List Effect
  iterations : Nat
  deriving DecidableEq, Repr

/-- The method `Implementation::Start()`: iterate while `mQuit` is false. The
script supplies one `Frame` per iteration; a script that ends while the engine
is still running cuts the run there. -/
def Implementation.Start : Implementation → List Frame → Run
  | s, [] => ⟨s, [], 0⟩
  | s, f :: frames =>
    if s.mQuit then ⟨s, [], 0⟩
    else
      let r := iteration s f
      let rest := Implementation.Start r.1 frames
      ⟨rest.state, r.2 ++ rest.trace, rest.iterations + 1⟩

/-- The method `Engine::Start(Updater&)`: register the callback, show the
window, run the loop. -/
def Start (s : Implementation) (frames : List Frame) : Run :=
  let r := Implementation.Start { s with mUpdater := true } frames
  ⟨r.state, Effect.showWindow :: r.trace, r.iterations⟩

/-! ## Texture loading (`SdlSurface.cpp`) -/

/-- OpenGL enumerant `GL_RED` (`glew.h`). -/
def GL_RED : Nat := 0x1903
/-- OpenGL enumerant `GL_RGB`. -/
def GL_RGB : Nat := 0x1907
/-- OpenGL enumerant `GL_RGBA`. -/
def GL_RGBA : Nat := 0x1908
/-- OpenGL enumerant `GL_RGB8`. -/
def GL_RGB8 : Nat := 0x8051
/-- OpenGL enumerant `GL_RGBA8`. -/
def GL_RGBA8 : Nat := 0x8058
/-- OpenGL enumerant `GL_R8`. -/
def GL_R8 : Nat := 0x8229

/-- The fields of a decoded `SDL_Surface` that the constructor reads. -/
structure SDL_Surface where
  BytesPerPixel : Nat
  w : Int
  h : Int
  deriving DecidableEq, Repr

/-- The arguments of the `glTexImage2D` call made by a successful construction. -/
structure TexImage2D where
  internal : Nat
  width : Int
  height : Int
  external : Nat
  deriving DecidableEq, Repr

/-- The constructor `SdlSurface::SdlSurface(filename)`; `loaded` is the result
of `IMG_Load(filename)` (`none` for a null pointer). A thrown
`std::runtime_error` is `Except.error` with its message. -/
def SdlSurface.new (filename : String) (loaded : Option SDL_Surface) :
    Except String TexImage2D :=
  match loaded with
  | none => Except.error ("Unable to load texture " ++ filename)
  | some mSurface =>
    if mSurface.BytesPerPixel = 4 then
      Except.ok ⟨GL_RGBA8, mSurface.w, mSurface.h, GL_RGBA⟩
    else if mSurface.BytesPerPixel = 3 then
      Except.ok ⟨GL_RGB8, mSurface.w, mSurface.h, GL_RGB⟩
    else if mSurface.BytesPerPixel = 1 then
      Except.ok ⟨GL_R8, mSurface.w, mSurface.h, GL_RED⟩
    else Except.error "Image with unknown channel profile"

/-! ## Specification-side definitions -/

/-- The table is sorted strictly ascending by character code. -/
def SortedFont (Font : List Glyph) : Prop :=
  Font.Pairwise (fun a b => a.id < b.id)

instance instDecidableSortedFont (Font : List Glyph) : Decidable (SortedFont Font) := by
  unfold SortedFont
  infer_instance

/-- The partition property that characterises the position returned by the
binary search: everything before it is below `value`, everything from it on is not. -/
structure IsLowerBound (Font : List Glyph) (value : Int) (r : Nat) : Prop where
  le_length : r ≤ Font.length
  before : ∀ i g, i < r → Font[i]? = some g → g.id < value
  after : ∀ i g, r ≤ i → Font[i]? = some g → value ≤ g.id

/-- The glyph the specification designates for the character `c`: the table
entry whose character code is `c` if there is one, else the entry for `_`
(found by plain left-to-right search, not by the binary search of the code). -/
def specGlyph (Font : List Glyph) (c : Int) : Option Glyph :=
  match Font.find? (fun g => decide (g.id = c)) with
  | some g => some g
  | none => Font.find? (fun g => decide (g.id = 95))

/-- The advance of the glyph that the specification designates for `c`. -/
def specAdvance (Font : List Glyph) (c : Int) : Int :=
  match specGlyph Font c with
  | some g => g.advance
  | none => 0

/-- A glyph with the given character code and advance, all atlas fields zero. -/
def mkGlyph (id advance : Int) : Glyph := ⟨id, 0, 0, 0, 0, 0, 0, advance⟩

/-- A small sorted table with a fallback entry, for concrete evaluation. -/
def sampleFont : List Glyph :=
  [mkGlyph 32 10, mkGlyph 65 20, mkGlyph 66 30, mkGlyph 95 40, mkGlyph 97 50]

/-- A one-entry table whose fallback glyph has the advance `2^30`. -/
def wideFont : List Glyph := [mkGlyph 95 1073741824]

/-- A one-entry table whose fallback glyph has the advance 64. -/
def narrowFont : List Glyph := [mkGlyph 95 64]

/-- The last mouse-motion event of a drained sequence, if there is one. -/
def lastMotion (events : List SDL_Event) : Option SDL_Event :=
  (events.filter (fun e => decide (e.type = SDL_MOUSEMOTION))).getLast?

/-- The last mouse-button event (down or up) of a drained sequence, if there is one. -/
def lastButton (events : List SDL_Event) : Option SDL_Event :=
  (events.filter (fun e =>
    decide (e.type = SDL_MOUSEBUTTONDOWN ∨ e.type = SDL_MOUSEBUTTONUP))).getLast?

/-- Whether an effect is an invocation of the update callback. -/
def Effect.isUpdate : Effect → Bool
  | Effect.update _ => true
  | _ => false

/-- Whether an effect is a call on a sprite batch. -/
def Effect.isBatch : Effect → Bool
  | Effect.batch _ => true
  | _ => false

/-- A frame with a stall of 5000 ticks after construction at tick 0. -/
def stallFrame : Frame := ⟨[], 5000, []⟩

/-- A frame whose update callback renders, quits, and renders once more. -/
def quitFrame : Frame :=
  ⟨[], 1010, [EngineCall.RenderAt Sprite.SPRITE_CELL 10 20 0, EngineCall.Quit,
    EngineCall.RenderAt Sprite.SPRITE_BLUE 30 40 0]⟩

/-- A frame with one mouse motion and no engine call. -/
def idleFrame : Frame := ⟨[⟨SDL_MOUSEMOTION, 3, 4⟩], 1000, []⟩

/-- The engine state of an iteration at the point where the update callback is
about to be invoked: events drained, tick stored, frame duration stored. -/
def afterTiming (s : Implementation) (f : Frame) : Implementation :=
  { ParseEvents s f.events with
    mElapsedTicks := roundF32 (f.ticks : ℚ)
    mLastFrameSeconds :=
      roundF32 (stdMin (roundF32 (roundF32 (f.ticks : ℚ) - (ParseEvents s f.events).mElapsedTicks))
        MaxFrameTicks * roundF32 (1 / 1000)) }

/-- The frame durations that the specification prescribes for a sequence of
clock readings: each is `min(current - previous, 300) * 0.001` in binary32
(`0.001f` is `8589935 / 2^33`), where `previous` is the reading of the
iteration before, and of the constructor for the first. -/
def frameDurations (previousTicks : ℚ) : List Nat → List ℚ
  | [] => []
  | t :: ts =>
    roundF32 (min (roundF32 (roundF32 (t : ℚ) - previousTicks)) 300 * (8589935 / 8589934592)) ::
      frameDurations (roundF32 (t : ℚ)) ts

/-- The frame durations in force at the invocations of the update callback, in order. -/
def updateSeconds (trace : List Effect) : List ℚ :=
  trace.filterMap (fun e =>
    match e with
    | Effect.update sec => some sec
    | _ => none)

/-- The effects of an iteration that precede the update callback. -/
def loopHead (f : Frame) : List Effect :=
  [Effect.swapWindow, Effect.clearDepth, Effect.clearColor, Effect.viewport,
    Effect.pollEvents f.events.length]

/-! # Theorems -/

/-! ## Binary search over the glyph table -/

theorem SortedFont.lt_of_index {Font : List Glyph} (hs : SortedFont Font)
    {i j : Nat} {gi gj : Glyph} (hij : i < j)
    (hi : Font[i]? = some gi) (hj : Font[j]? = some gj) : gi.id < gj.id := by
  obtain ⟨hi1, hi2⟩ := List.getElem?_eq_some.mp hi
  obtain ⟨hj1, hj2⟩ := List.getElem?_eq_some.mp hj
  have h := (List.pairwise_iff_getElem.mp hs) i j hi1 hj1 hij
  rw [hi2, hj2] at h
  exact h

theorem SortedFont.le_of_index {Font : List Glyph} (hs : SortedFont Font)
    {i j : Nat} {gi gj : Glyph} (hij : i ≤ j)
    (hi : Font[i]? = some gi) (hj : Font[j]? = some gj) : gi.id ≤ gj.id := by
  rcases Nat.lt_or_eq_of_le hij with h | h
  · exact le_of_lt (hs.lt_of_index h hi hj)
  · subst h
    rw [hi] at hj
    cases hj
    exact le_refl _

theorem lowerBoundLoop_spec {Font : List Glyph} (hs : SortedFont Font) (value : Int) :
    ∀ (fuel first count : Nat), count ≤ fuel → first + count ≤ Font.length →
      (∀ i g, i < first → Font[i]? = some g → g.id < value) →
      (∀ i g, first + count ≤ i → Font[i]? = some g → value ≤ g.id) →
      IsLowerBound Font value (lowerBoundLoop Font value fuel first count) := by
  intro fuel
  induction fuel with
  | zero =>
    intro first count hc hlen hb ha
    have h0 : count = 0 := Nat.le_zero.mp hc
    subst h0
    exact ⟨by simpa [lowerBoundLoop] using hlen, by simpa [lowerBoundLoop] using hb,
      by simpa [lowerBoundLoop] using ha⟩
  | succ fuel ih =>
    intro first count hc hlen hb ha
    unfold lowerBoundLoop
    by_cases h0 : count = 0
    · subst h0
      simp only [if_true]
      exact ⟨by simpa using hlen, hb, by simpa using ha⟩
    · simp only [h0, if_false]
      have hstep : count / 2 < count := Nat.div_lt_self (Nat.pos_of_ne_zero h0) (by decide)
      have hit : first + count / 2 < Font.length := by omega
      obtain ⟨g, hg⟩ : ∃ g, Font[first + count / 2]? = some g :=
        ⟨_, List.getElem?_eq_getElem hit⟩
      simp only [hg]
      by_cases hlt : g.ltCode value = true
      · simp only [hlt, if_true]
        have hlt2 : g.id < value := by simpa [Glyph.ltCode] using hlt
        apply ih
        · omega
        · omega
        · intro i gi hi hgi
          have : gi.id ≤ g.id := hs.le_of_index (by omega) hgi hg
          omega
        · intro i gi hi hgi
          exact ha i gi (by omega) hgi
      · simp only [hlt, if_false]
        have hlt2 : value ≤ g.id := by
          have : ¬ g.id < value := by simpa [Glyph.ltCode] using hlt
          omega
        apply ih
        · omega
        · omega
        · exact hb
        · intro i gi hi hgi
          have : g.id ≤ gi.id := hs.le_of_index hi hg hgi
          omega

theorem lower_bound_spec {Font : List Glyph} (hs : SortedFont Font) (value : Int) :
    IsLowerBound Font value (lower_bound Font value) := by
  unfold lower_bound
  apply lowerBoundLoop_spec hs value
  · exact le_refl _
  · omega
  · intro i g hi
    omega
  · intro i g hi hg
    obtain ⟨h1, _⟩ := List.getElem?_eq_some.mp hg
    omega

/-- On a sorted table that holds `g`, searching for the code of `g` lands on `g`. -/
theorem lower_bound_of_mem {Font : List Glyph} (hs : SortedFont Font) {g : Glyph}
    (hg : g ∈ Font) : Font[lower_bound Font g.id]? = some g := by
  obtain ⟨j, hj⟩ := List.getElem?_of_mem hg
  have hlb := lower_bound_spec hs g.id
  have hjlen : j < Font.length := (List.getElem?_eq_some.mp hj).1
  have hrj : lower_bound Font g.id ≤ j := by
    by_contra hcon
    have := hlb.before j g (by omega) hj
    omega
  obtain ⟨u, hu⟩ : ∃ u, Font[lower_bound Font g.id]? = some u :=
    ⟨_, List.getElem?_eq_getElem (by omega)⟩
  rcases Nat.lt_or_eq_of_le hrj with h | h
  · have h1 := hs.lt_of_index h hu hj
    have h2 := hlb.after _ u (le_refl _) hu
    omega
  · rw [h]; exact hj

/-- On a sorted table without the code `c`, the search stops at the end or at a
glyph whose code is above `c`. -/
theorem lower_bound_of_not_mem {Font : List Glyph} (hs : SortedFont Font) {c : Int}
    (hc : ∀ g ∈ Font, g.id ≠ c) :
    lower_bound Font c = Font.length ∨
      ∃ u, Font[lower_bound Font c]? = some u ∧ c < u.id := by
  have hlb := lower_bound_spec hs c
  rcases Nat.lt_or_eq_of_le hlb.le_length with h | h
  · right
    refine ⟨_, List.getElem?_eq_getElem h, ?_⟩
    have h1 := hlb.after _ _ (le_refl _) (List.getElem?_eq_getElem h)
    have h2 := hc _ (List.getElem?_mem (List.getElem?_eq_getElem h))
    omega
  · left; exact h

theorem FindGlyph_of_mem {Font : List Glyph} (hs : SortedFont Font) {g : Glyph}
    (hg : g ∈ Font) : FindGlyph Font g.id = some g := by
  have h := lower_bound_of_mem hs hg
  have hlen : lower_bound Font g.id < Font.length := (List.getElem?_eq_some.mp h).1
  unfold FindGlyph
  simp only [h, Glyph.codeLt]
  have hne : (lower_bound Font g.id == Font.length) = false := by
    simpa using Nat.ne_of_lt hlen
  simp [hne, h]

theorem FindGlyph_of_not_mem {Font : List Glyph} (hs : SortedFont Font) {c : Int}
    (hc : ∀ g ∈ Font, g.id ≠ c) : FindGlyph Font c = Font[lower_bound Font 95]? := by
  unfold FindGlyph
  rcases lower_bound_of_not_mem hs hc with h | ⟨u, hu, hlt⟩
  · simp [h]
  · simp [hu, Glyph.codeLt, hlt]

/-- In a sorted table two entries with the same character code are the same entry. -/
theorem SortedFont.eq_of_id_eq {Font : List Glyph} (hs : SortedFont Font) {g u : Glyph}
    (hg : g ∈ Font) (hu : u ∈ Font) (h : g.id = u.id) : g = u := by
  have h1 := FindGlyph_of_mem hs hg
  have h2 := FindGlyph_of_mem hs hu
  rw [h, h2] at h1
  exact (Option.some.inj h1).symm

/-- On a sorted table with a fallback entry the binary-search lookup agrees with
the lookup of the specification. -/
theorem FindGlyph_eq_specGlyph {Font : List Glyph} (hs : SortedFont Font)
    (hfb : ∃ u ∈ Font, u.id = 95) (c : Int) : FindGlyph Font c = specGlyph Font c := by
  unfold specGlyph
  cases hfind : Font.find? (fun g => decide (g.id = c)) with
  | some g =>
    have hmem : g ∈ Font := List.mem_of_find?_eq_some hfind
    have hid : g.id = c := by simpa using List.find?_some hfind
    simp only
    rw [← hid]
    exact FindGlyph_of_mem hs hmem
  | none =>
    have hnone : ∀ g ∈ Font, g.id ≠ c := by
      intro g hg
      simpa using (List.find?_eq_none.mp hfind) g hg
    simp only
    rw [FindGlyph_of_not_mem hs hnone]
    obtain ⟨u, hu, hu95⟩ := hfb
    have h1 : Font[lower_bound Font 95]? = some u := by
      rw [← hu95]; exact lower_bound_of_mem hs hu
    cases hf2 : Font.find? (fun g => decide (g.id = 95)) with
    | some v =>
      have hv : v ∈ Font := List.mem_of_find?_eq_some hf2
      have hvid : v.id = 95 := by simpa using List.find?_some hf2
      rw [h1, hs.eq_of_id_eq hu hv (by rw [hu95, hvid])]
    | none =>
      exact absurd hu95 (by simpa using (List.find?_eq_none.mp hf2) u hu)

theorem specGlyph_mem {Font : List Glyph} {c : Int} {g : Glyph}
    (h : specGlyph Font c = some g) : g ∈ Font := by
  unfold specGlyph at h
  cases hfind : Font.find? (fun g => decide (g.id = c)) with
  | some u =>
    rw [hfind] at h
    cases h
    exact List.mem_of_find?_eq_some hfind
  | none =>
    rw [hfind] at h
    exact List.mem_of_find?_eq_some h

theorem specGlyph_isSome {Font : List Glyph} (hfb : ∃ u ∈ Font, u.id = 95) (c : Int) :
    ∃ g, specGlyph Font c = some g := by
  unfold specGlyph
  cases hfind : Font.find? (fun g => decide (g.id = c)) with
  | some u => exact ⟨u, rfl⟩
  | none =>
    cases hf2 : Font.find? (fun g => decide (g.id = 95)) with
    | some v => exact ⟨v, rfl⟩
    | none =>
      obtain ⟨u, hu, hu95⟩ := hfb
      exact absurd hu95 (by simpa using (List.find?_eq_none.mp hf2) u hu)

theorem wrapInt32_of_inRange {n : Int} (h1 : -2147483648 ≤ n) (h2 : n ≤ 2147483647) :
    wrapInt32 n = n := by
  unfold wrapInt32
  omega

theorem wrapInt32_add_wrapInt32 (a b : Int) :
    wrapInt32 (wrapInt32 a + b) = wrapInt32 (a + b) := by
  unfold wrapInt32
  omega

/-- Without overflow of the accumulator the loop adds up the designated advances. -/
theorem advanceLoop_eq_sum {Font : List Glyph} (hs : SortedFont Font)
    (hfb : ∃ u ∈ Font, u.id = 95) :
    ∀ (text : List Int) (advance : Int), (∀ c ∈ text, c ≠ 0) →
      (∀ n, n ≤ text.length →
        -2147483648 ≤ advance + ((text.take n).map (specAdvance Font)).sum ∧
        advance + ((text.take n).map (specAdvance Font)).sum ≤ 2147483647) →
      advanceLoop Font text advance = some (advance + (text.map (specAdvance Font)).sum) := by
  intro text
  induction text with
  | nil => intro advance _ _; simp [advanceLoop]
  | cons c text ih =>
    intro advance hnz hno
    have hc : c ≠ 0 := hnz c (List.mem_cons_self _ _)
    obtain ⟨g, hg⟩ := specGlyph_isSome hfb c
    have hadv : specAdvance Font c = g.advance := by simp [specAdvance, hg]
    have h1 := hno 1 (by simp)
    simp only [List.take_succ_cons, List.take_zero, List.map_cons, List.map_nil,
      List.sum_cons, List.sum_nil, add_zero] at h1
    rw [hadv] at h1
    unfold advanceLoop
    simp only [hc, if_false, FindGlyph_eq_specGlyph hs hfb c, hg]
    rw [wrapInt32_of_inRange h1.1 h1.2, ih]
    · simp [hadv, add_assoc]
    · intro d hd; exact hnz d (List.mem_cons_of_mem _ hd)
    · intro n hn
      have := hno (n + 1) (by simpa using hn)
      simpa [hadv, add_assoc] using this

theorem sum_map_mul_TextScale (Font : List Glyph) (s : List Int) :
    (s.map (fun c => (specAdvance Font c : ℚ) * TextScale)).sum =
      TextScale * (((s.map (specAdvance Font)).sum : Int) : ℚ) := by
  induction s with
  | nil => simp
  | cons c s ih => simp [ih]; ring

theorem specAdvance_nonneg {Font : List Glyph} (hadv : ∀ g ∈ Font, 0 ≤ g.advance) (c : Int) :
    0 ≤ specAdvance Font c := by
  unfold specAdvance
  cases h : specGlyph Font c with
  | some g => exact hadv g (specGlyph_mem h)
  | none => exact le_refl _

theorem sum_specAdvance_nonneg {Font : List Glyph} (hadv : ∀ g ∈ Font, 0 ≤ g.advance)
    (s : List Int) : 0 ≤ (s.map (specAdvance Font)).sum := by
  induction s with
  | nil => simp
  | cons c s ih =>
    have := specAdvance_nonneg hadv c
    simp only [List.map_cons, List.sum_cons]
    omega

theorem sum_take_le_sum {Font : List Glyph} (hadv : ∀ g ∈ Font, 0 ≤ g.advance)
    (s : List Int) (n : Nat) :
    ((s.take n).map (specAdvance Font)).sum ≤ (s.map (specAdvance Font)).sum := by
  have h := sum_specAdvance_nonneg hadv (s.drop n)
  have h2 : (s.map (specAdvance Font)).sum =
      ((s.take n).map (specAdvance Font)).sum + ((s.drop n).map (specAdvance Font)).sum := by
    rw [← List.sum_append, ← List.map_append, List.take_append_drop]
  omega

/-- The loop on `n` copies of a character the table maps to `g`. -/
theorem advanceLoop_replicate {Font : List Glyph} {c : Int} {g : Glyph} (hc : c ≠ 0)
    (hg : FindGlyph Font c = some g) :
    ∀ (n : Nat) (advance : Int),
      advanceLoop Font (List.replicate n c) advance =
        some (wrapInt32 (wrapInt32 advance + (n : Int) * g.advance)) ∨ n = 0 := by
  intro n
  induction n with
  | zero => intro _; right; rfl
  | succ n ih =>
    intro advance
    left
    rw [List.replicate_succ]
    unfold advanceLoop
    simp only [hc, if_false, hg]
    rcases ih (wrapInt32 (advance + g.advance)) with h | h
    · rw [h, wrapInt32_add_wrapInt32, wrapInt32_add_wrapInt32, wrapInt32_add_wrapInt32]
      congr 2
      push_cast
      ring
    · subst h
      simp [advanceLoop, wrapInt32_add_wrapInt32]

/-- The width returned once the loop has produced the accumulated advance. -/
theorem width_of_advance {Font : List Glyph} {text : List Int} {advance : Int}
    (h : advanceLoop Font text 0 = some advance) :
    CalculateStringWidth Font text = some ((advance : ℚ) * (1 / 2)) := by
  unfold CalculateStringWidth
  rw [h]
  rfl

/-! ## Font metrics: the contract of `FindGlyph` and `CalculateStringWidth` -/

/-- C1: on a glyph table sorted strictly ascending by character code that holds
an entry for `_` (code 95), `FindGlyph c` returns exactly the entry whose code
is `c` when there is one, the entry for `_` when there is none, and in every
case an element of the table (the dereferenced position is never the end). -/
theorem FindGlyph_contract (Font : List Glyph) (hs : SortedFont Font)
    (hfb : ∃ u ∈ Font, u.id = 95) (c : Int) :
    (∀ g ∈ Font, g.id = c → FindGlyph Font c = some g) ∧
    ((∀ g ∈ Font, g.id ≠ c) → ∃ u ∈ Font, u.id = 95 ∧ FindGlyph Font c = some u) ∧
    (∃ g ∈ Font, FindGlyph Font c = some g) := by
  have hpresent : ∀ g ∈ Font, g.id = c → FindGlyph Font c = some g := by
    intro g hg hid
    rw [← hid]
    exact FindGlyph_of_mem hs hg
  have habsent : (∀ g ∈ Font, g.id ≠ c) →
      ∃ u ∈ Font, u.id = 95 ∧ FindGlyph Font c = some u := by
    intro hc
    obtain ⟨u, hu, hu95⟩ := hfb
    refine ⟨u, hu, hu95, ?_⟩
    rw [FindGlyph_of_not_mem hs hc, ← hu95]
    exact lower_bound_of_mem hs hu
  refine ⟨hpresent, habsent, ?_⟩
  by_cases hex : ∃ g ∈ Font, g.id = c
  · obtain ⟨g, hg, hid⟩ := hex
    exact ⟨g, hg, hpresent g hg hid⟩
  · obtain ⟨u, hu, _, hfu⟩ := habsent (fun g hg hid => hex ⟨g, hg, hid⟩)
    exact ⟨u, hu, hfu⟩

/-- Witness for C1 on `sampleFont`: the present code 66 yields its own entry and
the absent code 67 yields the entry for `_`. -/
theorem FindGlyph_contract_witness :
    FindGlyph sampleFont 66 = some (mkGlyph 66 30) ∧
    FindGlyph sampleFont 67 = some (mkGlyph 95 40) := by
  have hs : SortedFont sampleFont := by decide
  have hfb : ∃ u ∈ sampleFont, u.id = 95 := ⟨mkGlyph 95 40, by decide, rfl⟩
  refine ⟨(FindGlyph_contract sampleFont hs hfb 66).1 (mkGlyph 66 30) (by decide) rfl, ?_⟩
  obtain ⟨u, hu, hu95, hfu⟩ :=
    (FindGlyph_contract sampleFont hs hfb 67).2.1 (by decide)
  rw [hfu]
  exact congrArg some (hs.eq_of_id_eq hu (by decide) (by rw [hu95]; rfl))

/-- C2: on a sorted table with a fallback entry, for a string of non-zero
characters whose running integer sum of advances stays within the `int` range,
`CalculateStringWidth` is the sum over the characters of the designated glyph's
advance times `TextScale`, which is one half of the integer sum of the advances
(the fallback advance counting for every character absent from the table). -/
theorem CalculateStringWidth_eq_sum (Font : List Glyph) (hs : SortedFont Font)
    (hfb : ∃ u ∈ Font, u.id = 95) (s : List Int) (hnz : ∀ c ∈ s, c ≠ 0)
    (hno : ∀ n, n ≤ s.length →
      -2147483648 ≤ ((s.take n).map (specAdvance Font)).sum ∧
      ((s.take n).map (specAdvance Font)).sum ≤ 2147483647) :
    (∀ c ∈ s, ∃ g, FindGlyph Font c = some g ∧ g.advance = specAdvance Font c) ∧
    CalculateStringWidth Font s =
      some ((s.map (fun c => (specAdvance Font c : ℚ) * TextScale)).sum) ∧
    CalculateStringWidth Font s =
      some ((1 / 2 : ℚ) * (((s.map (specAdvance Font)).sum : Int) : ℚ)) := by
  have hloop : advanceLoop Font s 0 = some ((s.map (specAdvance Font)).sum) := by
    have h := advanceLoop_eq_sum hs hfb s 0 hnz (by simpa using hno)
    simpa using h
  refine ⟨?_, ?_, ?_⟩
  · intro c _
    obtain ⟨g, hg⟩ := specGlyph_isSome hfb c
    exact ⟨g, by rw [FindGlyph_eq_specGlyph hs hfb c, hg], by simp [specAdvance, hg]⟩
  · unfold CalculateStringWidth
    rw [hloop, sum_map_mul_TextScale]
    simp only [Option.some.injEq]
    ring
  · unfold CalculateStringWidth
    rw [hloop]
    simp only [Option.some.injEq, TextScale]
    ring

/-- Witness for C2 on `sampleFont`: the string "AB?a" (the `?` is absent from
the table) has the width `(20 + 30 + 40 + 50) / 2 = 70`. -/
theorem CalculateStringWidth_eq_sum_witness :
    CalculateStringWidth sampleFont [65, 66, 63, 97] = some 70 := by
  have h := (CalculateStringWidth_eq_sum sampleFont (by decide)
    ⟨mkGlyph 95 40, by decide, rfl⟩ [65, 66, 63, 97] (by decide) (by decide)).2.2
  rw [h]
  have hsum : ([65, 66, 63, 97].map (specAdvance sampleFont)).sum = 140 := by decide
  rw [hsum]
  norm_num

/-- C3, refuted as stated: with non-negative advances only, appending a
character can make the width smaller, because the `int` accumulator wraps.
On `wideFont` (advance `2^30`) the width of "_" is `2^29` and the width of "__"
is `-2^30`; on `narrowFont` (advance 64) the same happens after `2^25 - 1`
characters. Hence the monotonicity claim, quantified over all tables with
non-negative advances, all strings and all characters, is false. -/
theorem CalculateStringWidth_wraps_counterexample :
    (SortedFont wideFont ∧ (∃ u ∈ wideFont, u.id = 95) ∧ (∀ g ∈ wideFont, 0 ≤ g.advance) ∧
      CalculateStringWidth wideFont [95] = some 536870912 ∧
      CalculateStringWidth wideFont ([95] ++ [95]) = some (-1073741824)) ∧
    (SortedFont narrowFont ∧ (∃ u ∈ narrowFont, u.id = 95) ∧
      (∀ g ∈ narrowFont, 0 ≤ g.advance) ∧
      CalculateStringWidth narrowFont (List.replicate 33554431 95) = some 1073741792 ∧
      CalculateStringWidth narrowFont (List.replicate 33554431 95 ++ [95]) =
        some (-1073741824)) ∧
    ¬ (∀ (Font : List Glyph), SortedFont Font → (∃ u ∈ Font, u.id = 95) →
        (∀ g ∈ Font, 0 ≤ g.advance) → ∀ (s : List Int) (c : Int),
        (∀ ch ∈ s, ch ≠ 0) → c ≠ 0 →
        ∃ w w2, CalculateStringWidth Font s = some w ∧
          CalculateStringWidth Font (s ++ [c]) = some w2 ∧ w ≤ w2) := by
  have hw1 : CalculateStringWidth wideFont [95] = some 536870912 := by
    have h : advanceLoop wideFont [95] 0 = some 1073741824 := by decide
    rw [width_of_advance h]
    norm_num
  have hw2 : CalculateStringWidth wideFont ([95] ++ [95]) = some (-1073741824) := by
    have h : advanceLoop wideFont ([95] ++ [95]) 0 = some (-2147483648) := by decide
    rw [width_of_advance h]
    norm_num
  have hg : FindGlyph narrowFont 95 = some (mkGlyph 95 64) := by decide
  have hn1 : CalculateStringWidth narrowFont (List.replicate 33554431 95) =
      some 1073741792 := by
    have h : advanceLoop narrowFont (List.replicate 33554431 95) 0 = some 2147483584 := by
      rcases advanceLoop_replicate (by decide) hg 33554431 0 with h | h
      · rw [h]; decide
      · exact absurd h (by decide)
    rw [width_of_advance h]
    norm_num
  have hn2 : CalculateStringWidth narrowFont (List.replicate 33554431 95 ++ [95]) =
      some (-1073741824) := by
    have h : advanceLoop narrowFont (List.replicate (33554431 + 1) 95) 0 =
        some (-2147483648) := by
      rcases advanceLoop_replicate (by decide) hg (33554431 + 1) 0 with h | h
      · rw [h]; decide
      · exact absurd h (by decide)
    rw [← List.replicate_succ'] 
    rw [width_of_advance h]
    norm_num
  refine ⟨⟨by decide, ⟨mkGlyph 95 1073741824, by decide, rfl⟩, by decide, hw1, hw2⟩,
    ⟨by decide, ⟨mkGlyph 95 64, by decide, rfl⟩, by decide, hn1, hn2⟩, ?_⟩
  intro hall
  obtain ⟨w, w2, h1, h2, hle⟩ := hall wideFont (by decide)
    ⟨mkGlyph 95 1073741824, by decide, rfl⟩ (by decide) [95] 95 (by decide) (by decide)
  rw [hw1] at h1
  rw [hw2] at h2
  cases h1
  cases h2
  norm_num at hle

/-- C3, amended: the width of the empty string is 0 for every table; and on a
sorted table with a fallback entry and non-negative advances, for a string `s`
of non-zero characters and a non-zero character `c` such that the integer sum
of the advances of `s` followed by `c` does not exceed the largest `int`, the
width of `s` followed by `c` is at least the width of `s`. -/
theorem CalculateStringWidth_mono :
    (∀ Font : List Glyph, CalculateStringWidth Font [] = some 0) ∧
    (∀ (Font : List Glyph), SortedFont Font → (∃ u ∈ Font, u.id = 95) →
      (∀ g ∈ Font, 0 ≤ g.advance) → ∀ (s : List Int) (c : Int),
      (∀ ch ∈ s, ch ≠ 0) → c ≠ 0 →
      ((s ++ [c]).map (specAdvance Font)).sum ≤ 2147483647 →
      ∃ w w2, CalculateStringWidth Font s = some w ∧
        CalculateStringWidth Font (s ++ [c]) = some w2 ∧ w ≤ w2) := by
  refine ⟨fun Font => by simp [CalculateStringWidth, advanceLoop], ?_⟩
  intro Font hs hfb hadv s c hnz hc hno
  have hcnn := specAdvance_nonneg hadv c
  have hsum : ((s ++ [c]).map (specAdvance Font)).sum =
      (s.map (specAdvance Font)).sum + specAdvance Font c := by simp
  have hrange : ∀ (t : List Int), (t.map (specAdvance Font)).sum ≤ 2147483647 →
      ∀ n, n ≤ t.length →
        -2147483648 ≤ 0 + ((t.take n).map (specAdvance Font)).sum ∧
        0 + ((t.take n).map (specAdvance Font)).sum ≤ 2147483647 := by
    intro t ht n _
    have h1 := sum_specAdvance_nonneg hadv (t.take n)
    have h2 := sum_take_le_sum hadv t n
    omega
  have hl1 := advanceLoop_eq_sum hs hfb s 0 hnz (hrange s (by omega))
  have hl2 := advanceLoop_eq_sum hs hfb (s ++ [c]) 0
    (by
      intro ch hch
      rcases List.mem_append.mp hch with h | h
      · exact hnz ch h
      · rw [List.mem_singleton.mp h]; exact hc)
    (hrange (s ++ [c]) hno)
  refine ⟨_, _, width_of_advance hl1, width_of_advance hl2, ?_⟩
  rw [hsum]
  have : (((0 + (s.map (specAdvance Font)).sum : Int)) : ℚ) ≤
      (((0 + ((s.map (specAdvance Font)).sum + specAdvance Font c) : Int)) : ℚ) := by
    exact_mod_cast (by omega : 0 + (s.map (specAdvance Font)).sum ≤
      0 + ((s.map (specAdvance Font)).sum + specAdvance Font c))
  linarith

/-- Witness for amended C3 on `sampleFont`: appending "a" to "AB" takes the
width from 25 to 50. -/
theorem CalculateStringWidth_mono_witness :
    ∃ w w2, CalculateStringWidth sampleFont [65, 66] = some w ∧
      CalculateStringWidth sampleFont ([65, 66] ++ [97]) = some w2 ∧ w ≤ w2 :=
  CalculateStringWidth_mono.2 sampleFont (by decide) ⟨mkGlyph 95 40, by decide, rfl⟩
    (by decide) [65, 66] 97 (by decide) (by decide) (by decide)

/-! ## Input polling -/

theorem ParseEvents_nil (s : Implementation) : ParseEvents s [] = s := rfl

theorem ParseEvents_cons (s : Implementation) (e : SDL_Event) (events : List SDL_Event) :
    ParseEvents s (e :: events) = ParseEvents (handleEvent s e) events := rfl

theorem ParseEvents_concat (s : Implementation) (events : List SDL_Event) (e : SDL_Event) :
    ParseEvents s (events ++ [e]) = handleEvent (ParseEvents s events) e := by
  simp [ParseEvents, List.foldl_append]

theorem handleEvent_timing (s : Implementation) (e : SDL_Event) :
    (handleEvent s e).mElapsedTicks = s.mElapsedTicks ∧
    (handleEvent s e).mLastFrameSeconds = s.mLastFrameSeconds ∧
    (handleEvent s e).mUpdater = s.mUpdater := by
  unfold handleEvent
  split_ifs <;> simp

theorem ParseEvents_timing (events : List SDL_Event) :
    ∀ s : Implementation, (ParseEvents s events).mElapsedTicks = s.mElapsedTicks ∧
      (ParseEvents s events).mLastFrameSeconds = s.mLastFrameSeconds ∧
      (ParseEvents s events).mUpdater = s.mUpdater := by
  induction events with
  | nil => intro s; exact ⟨rfl, rfl, rfl⟩
  | cons e events ih =>
    intro s
    rw [ParseEvents_cons]
    obtain ⟨h1, h2, h3⟩ := ih (handleEvent s e)
    obtain ⟨g1, g2, g3⟩ := handleEvent_timing s e
    exact ⟨h1.trans g1, h2.trans g2, h3.trans g3⟩

theorem handleEvent_mQuit (s : Implementation) (e : SDL_Event) :
    (handleEvent s e).mQuit = true ↔
      s.mQuit = true ∨ e.type = SDL_QUIT ∨ e.type = SDL_KEYDOWN := by
  unfold handleEvent
  split_ifs with h1 h2 h3 h4
  · simp [h1]
  · simp [h1]
  · simp [h1]
  · simp [h1]
  · simp [h1]

theorem ParseEvents_mQuit (events : List SDL_Event) :
    ∀ s : Implementation, (ParseEvents s events).mQuit = true ↔
      s.mQuit = true ∨ ∃ e ∈ events, e.type = SDL_QUIT ∨ e.type = SDL_KEYDOWN := by
  induction events with
  | nil => intro s; simp [ParseEvents_nil]
  | cons e events ih =>
    intro s
    rw [ParseEvents_cons, ih, handleEvent_mQuit]
    simp only [List.mem_cons, exists_eq_or_imp]
    exact or_assoc

theorem handleEvent_of_unknown (s : Implementation) (e : SDL_Event)
    (h1 : e.type ≠ SDL_QUIT) (h2 : e.type ≠ SDL_KEYDOWN) (h3 : e.type ≠ SDL_MOUSEBUTTONDOWN)
    (h4 : e.type ≠ SDL_MOUSEBUTTONUP) (h5 : e.type ≠ SDL_MOUSEMOTION) :
    handleEvent s e = s := by
  unfold handleEvent
  simp [h1, h2, h3, h4, h5]

theorem handleEvent_of_quit (s : Implementation) (e : SDL_Event)
    (h : e.type = SDL_QUIT ∨ e.type = SDL_KEYDOWN) :
    handleEvent s e = { s with mQuit := true } := by
  unfold handleEvent
  rw [if_pos h]

theorem handleEvent_of_down (s : Implementation) (e : SDL_Event)
    (h : e.type = SDL_MOUSEBUTTONDOWN) :
    handleEvent s e = { s with mMouseButtonDown := true } := by
  unfold handleEvent
  rw [if_neg (by rw [h]; decide), if_pos h]

theorem handleEvent_of_up (s : Implementation) (e : SDL_Event)
    (h : e.type = SDL_MOUSEBUTTONUP) :
    handleEvent s e = { s with mMouseButtonDown := false } := by
  unfold handleEvent
  rw [if_neg (by rw [h]; decide), if_neg (by rw [h]; decide), if_pos h]

theorem handleEvent_of_motion (s : Implementation) (e : SDL_Event)
    (h : e.type = SDL_MOUSEMOTION) :
    handleEvent s e =
      { s with mMouseX := (e.motion_x : ℚ), mMouseY := (e.motion_y : ℚ) } := by
  unfold handleEvent
  rw [if_neg (by rw [h]; decide), if_neg (by rw [h]; decide), if_neg (by rw [h]; decide),
    if_pos h]

theorem handleEvent_mouse_of_not_motion (s : Implementation) (e : SDL_Event)
    (h : e.type ≠ SDL_MOUSEMOTION) :
    (handleEvent s e).mMouseX = s.mMouseX ∧ (handleEvent s e).mMouseY = s.mMouseY := by
  unfold handleEvent
  split_ifs <;> simp

theorem handleEvent_button_of_not_button (s : Implementation) (e : SDL_Event)
    (hd : e.type ≠ SDL_MOUSEBUTTONDOWN) (hu : e.type ≠ SDL_MOUSEBUTTONUP) :
    (handleEvent s e).mMouseButtonDown = s.mMouseButtonDown := by
  unfold handleEvent
  split_ifs <;> simp

theorem lastMotion_concat (events : List SDL_Event) (e : SDL_Event) :
    lastMotion (events ++ [e]) =
      if e.type = SDL_MOUSEMOTION then some e else lastMotion events := by
  unfold lastMotion
  by_cases h : e.type = SDL_MOUSEMOTION
  · rw [if_pos h, List.filter_append]
    have : List.filter (fun e => decide (e.type = SDL_MOUSEMOTION)) [e] = [e] := by
      simp [List.filter, h]
    rw [this, List.getLast?_concat]
  · rw [if_neg h, List.filter_append]
    have : List.filter (fun e => decide (e.type = SDL_MOUSEMOTION)) [e] = [] := by
      simp [List.filter, h]
    rw [this, List.append_nil]

theorem lastButton_concat (events : List SDL_Event) (e : SDL_Event) :
    lastButton (events ++ [e]) =
      if e.type = SDL_MOUSEBUTTONDOWN ∨ e.type = SDL_MOUSEBUTTONUP then some e
      else lastButton events := by
  unfold lastButton
  by_cases h : e.type = SDL_MOUSEBUTTONDOWN ∨ e.type = SDL_MOUSEBUTTONUP
  · rw [if_pos h, List.filter_append]
    have : List.filter (fun e =>
        decide (e.type = SDL_MOUSEBUTTONDOWN ∨ e.type = SDL_MOUSEBUTTONUP)) [e] = [e] := by
      simp [List.filter, h]
    rw [this, List.getLast?_concat]
  · rw [if_neg h, List.filter_append]
    have : List.filter (fun e =>
        decide (e.type = SDL_MOUSEBUTTONDOWN ∨ e.type = SDL_MOUSEBUTTONUP)) [e] = [] := by
      simp [List.filter, h]
    rw [this, List.append_nil]

/-- C6: after one `ParseEvents` call the mouse position is that of the last
mouse-motion event of the drained sequence, and is unchanged when the sequence
holds no mouse-motion event. -/
theorem mouse_position_is_last_motion (s : Implementation) (events : List SDL_Event) :
    match lastMotion events with
    | some e =>
      GetMouseX (ParseEvents s events) = (e.motion_x : ℚ) ∧
      GetMouseY (ParseEvents s events) = (e.motion_y : ℚ)
    | none =>
      GetMouseX (ParseEvents s events) = GetMouseX s ∧
      GetMouseY (ParseEvents s events) = GetMouseY s := by
  induction events using List.reverseRecOn with
  | nil => exact ⟨rfl, rfl⟩
  | append_singleton events e ih =>
    rw [ParseEvents_concat, lastMotion_concat]
    by_cases hm : e.type = SDL_MOUSEMOTION
    · rw [if_pos hm, handleEvent_of_motion _ _ hm]
      exact ⟨rfl, rfl⟩
    · rw [if_neg hm]
      obtain ⟨hx, hy⟩ := handleEvent_mouse_of_not_motion (ParseEvents s events) e hm
      simp only [GetMouseX, GetMouseY] at ih ⊢
      rw [hx, hy]
      exact ih

/-- C7: after one `ParseEvents` call the button flag is true when the last
button event of the drained sequence is a button-down, false when it is a
button-up, and unchanged when the sequence holds no button event; a
button-down followed by a button-up leaves it false whatever it was before. -/
theorem mouse_button_is_level_state :
    (∀ (s : Implementation) (events : List SDL_Event),
      match lastButton events with
      | some e =>
        GetMouseButtonDown (ParseEvents s events) = decide (e.type = SDL_MOUSEBUTTONDOWN)
      | none => GetMouseButtonDown (ParseEvents s events) = GetMouseButtonDown s) ∧
    (∀ (s : Implementation) (down up : SDL_Event), down.type = SDL_MOUSEBUTTONDOWN →
      up.type = SDL_MOUSEBUTTONUP →
      GetMouseButtonDown (ParseEvents s [down, up]) = false) := by
  constructor
  · intro s events
    induction events using List.reverseRecOn with
    | nil => rfl
    | append_singleton events e ih =>
      rw [ParseEvents_concat, lastButton_concat]
      by_cases hd : e.type = SDL_MOUSEBUTTONDOWN
      · rw [if_pos (Or.inl hd), handleEvent_of_down _ _ hd]
        simp [GetMouseButtonDown, hd]
      · by_cases hu : e.type = SDL_MOUSEBUTTONUP
        · rw [if_pos (Or.inr hu), handleEvent_of_up _ _ hu]
          simp [GetMouseButtonDown, hd]
        · rw [if_neg (by rintro (h | h); exact hd h; exact hu h)]
          have hx := handleEvent_button_of_not_button (ParseEvents s events) e hd hu
          simp only [GetMouseButtonDown] at ih ⊢
          rw [hx]
          exact ih
  · intro s down up _ hu
    rw [ParseEvents_cons, ParseEvents_cons, ParseEvents_nil, handleEvent_of_up _ _ hu]
    rfl

/-- Witness for C7: a button-down then a button-up, drained in one poll from a
state whose flag is set, leave the flag false. -/
theorem mouse_button_is_level_state_witness :
    GetMouseButtonDown (ParseEvents { Implementation.new 0 with mMouseButtonDown := true }
      [⟨SDL_MOUSEBUTTONDOWN, 0, 0⟩, ⟨SDL_MOUSEBUTTONUP, 0, 0⟩]) = false :=
  mouse_button_is_level_state.2 _ ⟨SDL_MOUSEBUTTONDOWN, 0, 0⟩ ⟨SDL_MOUSEBUTTONUP, 0, 0⟩ rfl rfl

/-! ## Binary32 rounding -/

theorem roundHalfEven_bounds (y : ℚ) :
    ⌊y⌋ ≤ roundHalfEven y ∧ roundHalfEven y ≤ ⌊y⌋ + 1 := by
  unfold roundHalfEven
  simp only
  split_ifs <;> omega

theorem roundHalfEven_intCast (n : ℤ) : roundHalfEven (n : ℚ) = n := by
  unfold roundHalfEven
  simp

theorem roundHalfEven_mono {y z : ℚ} (h : y ≤ z) : roundHalfEven y ≤ roundHalfEven z := by
  have hf : ⌊y⌋ ≤ ⌊z⌋ := Int.floor_mono h
  rcases lt_or_eq_of_le hf with hlt | heq
  · have h1 := (roundHalfEven_bounds y).2
    have h2 := (roundHalfEven_bounds z).1
    omega
  · unfold roundHalfEven
    simp only
    rw [← heq]
    split_ifs <;> first | omega | (exfalso; linarith)

theorem roundHalfEven_le_of_le_intCast {y : ℚ} {n : ℤ} (h : y ≤ (n : ℚ)) :
    roundHalfEven y ≤ n := by
  have := roundHalfEven_mono h
  rwa [roundHalfEven_intCast] at this

theorem roundHalfEven_ge_of_intCast_le {y : ℚ} {n : ℤ} (h : (n : ℚ) ≤ y) :
    n ≤ roundHalfEven y := by
  have := roundHalfEven_mono h
  rwa [roundHalfEven_intCast] at this

theorem two_zpow_pos (k : ℤ) : (0 : ℚ) < (2 : ℚ) ^ k := zpow_pos (by norm_num) k

theorem roundF32_nonneg {x : ℚ} (hx : 0 ≤ x) : 0 ≤ roundF32 x := by
  unfold roundF32
  have hq := two_zpow_pos (ulpExponent x)
  have h0 : ((0 : ℤ) : ℚ) ≤ x / (2 : ℚ) ^ ulpExponent x := by
    simpa using div_nonneg hx (le_of_lt hq)
  have := roundHalfEven_ge_of_intCast_le h0
  have h2 : (0 : ℚ) ≤ (roundHalfEven (x / (2 : ℚ) ^ ulpExponent x) : ℚ) := by exact_mod_cast this
  exact mul_nonneg h2 (le_of_lt hq)

theorem roundF32_nonpos {x : ℚ} (hx : x ≤ 0) : roundF32 x ≤ 0 := by
  unfold roundF32
  have hq := two_zpow_pos (ulpExponent x)
  have h0 : x / (2 : ℚ) ^ ulpExponent x ≤ ((0 : ℤ) : ℚ) := by
    simpa using div_nonpos_of_nonpos_of_nonneg hx (le_of_lt hq)
  have := roundHalfEven_le_of_le_intCast h0
  have h2 : (roundHalfEven (x / (2 : ℚ) ^ ulpExponent x) : ℚ) ≤ 0 := by exact_mod_cast this
  exact mul_nonpos_of_nonpos_of_nonneg h2 (le_of_lt hq)

theorem zpow_log_le {x : ℚ} (hx : 0 < x) : (2 : ℚ) ^ Int.log 2 x ≤ x := by
  have := Int.zpow_log_le_self (b := 2) (r := x) (by norm_num) hx
  simpa using this

theorem lt_zpow_log_succ (x : ℚ) : x < (2 : ℚ) ^ (Int.log 2 x + 1) := by
  have := Int.lt_zpow_succ_log_self (b := 2) (by norm_num) x
  simpa using this

/-- The rounded value of a positive `x` does not exceed the top of its binade. -/
theorem roundF32_le_zpow {x : ℚ} (hx : 0 < x) :
    roundF32 x ≤ (2 : ℚ) ^ (ulpExponent x + 24) := by
  have hq := two_zpow_pos (ulpExponent x)
  have hk : Int.log 2 x + 1 ≤ ulpExponent x + 24 := by
    unfold ulpExponent
    rw [abs_of_pos hx]
    have := le_max_left (Int.log 2 x - 23) (-149)
    omega
  have h1 : x ≤ (2 : ℚ) ^ (ulpExponent x + 24) :=
    le_trans (le_of_lt (lt_zpow_log_succ x)) (zpow_le_zpow_right₀ (by norm_num) hk)
  have h2 : x / (2 : ℚ) ^ ulpExponent x ≤ (((2 : ℤ) ^ 24 : ℤ) : ℚ) := by
    rw [div_le_iff₀ hq]
    rw [zpow_add₀ (by norm_num : (2 : ℚ) ≠ 0)] at h1
    push_cast
    calc x ≤ (2 : ℚ) ^ ulpExponent x * (2 : ℚ) ^ (24 : ℤ) := h1
      _ = 2 ^ 24 * (2 : ℚ) ^ ulpExponent x := by rw [mul_comm]; norm_num
  have h3 := roundHalfEven_le_of_le_intCast h2
  have h4 : (roundHalfEven (x / (2 : ℚ) ^ ulpExponent x) : ℚ) ≤ (((2 : ℤ) ^ 24 : ℤ) : ℚ) := by
    exact_mod_cast h3
  unfold roundF32
  rw [zpow_add₀ (by norm_num : (2 : ℚ) ≠ 0)]
  calc (roundHalfEven (x / (2 : ℚ) ^ ulpExponent x) : ℚ) * (2 : ℚ) ^ ulpExponent x
      ≤ (((2 : ℤ) ^ 24 : ℤ) : ℚ) * (2 : ℚ) ^ ulpExponent x :=
        mul_le_mul_of_nonneg_right h4 (le_of_lt hq)
    _ = (2 : ℚ) ^ ulpExponent x * (2 : ℚ) ^ (24 : ℤ) := by rw [mul_comm]; norm_num

/-- The rounded value of a positive normal `x` is at least the bottom of its binade. -/
theorem zpow_le_roundF32 {x : ℚ} (hx : 0 < x) (hn : ulpExponent x = Int.log 2 x - 23) :
    (2 : ℚ) ^ (ulpExponent x + 23) ≤ roundF32 x := by
  have hq := two_zpow_pos (ulpExponent x)
  have h1 : (2 : ℚ) ^ (ulpExponent x + 23) ≤ x := by
    have : ulpExponent x + 23 = Int.log 2 x := by omega
    rw [this]
    exact zpow_log_le hx
  have h2 : (((2 : ℤ) ^ 23 : ℤ) : ℚ) ≤ x / (2 : ℚ) ^ ulpExponent x := by
    rw [le_div_iff₀ hq]
    rw [zpow_add₀ (by norm_num : (2 : ℚ) ≠ 0)] at h1
    push_cast
    calc (2 : ℚ) ^ 23 * (2 : ℚ) ^ ulpExponent x
        = (2 : ℚ) ^ ulpExponent x * (2 : ℚ) ^ (23 : ℤ) := by rw [mul_comm]; norm_num
      _ ≤ x := h1
  have h3 := roundHalfEven_ge_of_intCast_le h2
  have h4 : (((2 : ℤ) ^ 23 : ℤ) : ℚ) ≤ (roundHalfEven (x / (2 : ℚ) ^ ulpExponent x) : ℚ) := by
    exact_mod_cast h3
  unfold roundF32
  rw [zpow_add₀ (by norm_num : (2 : ℚ) ≠ 0)]
  calc (2 : ℚ) ^ ulpExponent x * (2 : ℚ) ^ (23 : ℤ)
      = (((2 : ℤ) ^ 23 : ℤ) : ℚ) * (2 : ℚ) ^ ulpExponent x := by rw [mul_comm]; norm_num
    _ ≤ (roundHalfEven (x / (2 : ℚ) ^ ulpExponent x) : ℚ) * (2 : ℚ) ^ ulpExponent x :=
        mul_le_mul_of_nonneg_right h4 (le_of_lt hq)

theorem ulpExponent_mono_of_pos {x y : ℚ} (hx : 0 < x) (hxy : x ≤ y) :
    ulpExponent x ≤ ulpExponent y := by
  unfold ulpExponent
  rw [abs_of_pos hx, abs_of_pos (lt_of_lt_of_le hx hxy)]
  have := Int.log_mono_right (b := 2) hx hxy
  exact max_le_max (by omega) (le_refl _)

/-- Rounding to binary32 is monotone below every non-negative value. -/
theorem roundF32_mono_of_nonneg {x y : ℚ} (hy : 0 ≤ y) (hxy : x ≤ y) :
    roundF32 x ≤ roundF32 y := by
  rcases le_or_lt x 0 with hx | hx
  · exact le_trans (roundF32_nonpos hx) (roundF32_nonneg hy)
  · have hypos : 0 < y := lt_of_lt_of_le hx hxy
    have hk := ulpExponent_mono_of_pos hx hxy
    rcases lt_or_eq_of_le hk with hlt | heq
    · have hny : ulpExponent y = Int.log 2 y - 23 := by
        have h149 : -149 ≤ ulpExponent x := le_max_right _ _
        have : ulpExponent y = max (Int.log 2 y - 23) (-149) := by
          unfold ulpExponent; rw [abs_of_pos hypos]
        rcases max_cases (Int.log 2 y - 23) (-149) with ⟨h, _⟩ | ⟨h, _⟩
        · rw [this, h]
        · rw [this, h] at hlt; omega
      calc roundF32 x ≤ (2 : ℚ) ^ (ulpExponent x + 24) := roundF32_le_zpow hx
        _ ≤ (2 : ℚ) ^ (ulpExponent y + 23) := zpow_le_zpow_right₀ (by norm_num) (by omega)
        _ ≤ roundF32 y := zpow_le_roundF32 hypos hny
    · unfold roundF32
      rw [heq]
      have hq := two_zpow_pos (ulpExponent y)
      have h1 : x / (2 : ℚ) ^ ulpExponent y ≤ y / (2 : ℚ) ^ ulpExponent y :=
        div_le_div_of_nonneg_right hxy (le_of_lt hq)
      have h2 := roundHalfEven_mono h1
      exact mul_le_mul_of_nonneg_right (by exact_mod_cast h2) (le_of_lt hq)

/-- Evaluation of the rounding at a positive normal value that is not a tie. -/
theorem roundF32_eq_of_bounds {x : ℚ} (e m : ℤ) (hx : 0 < x) (he : -126 ≤ e)
    (h1 : (2 : ℚ) ^ e ≤ x) (h2 : x < (2 : ℚ) ^ (e + 1))
    (hm1 : (m : ℚ) - 1 / 2 < x / (2 : ℚ) ^ (e - 23))
    (hm2 : x / (2 : ℚ) ^ (e - 23) < (m : ℚ) + 1 / 2) :
    roundF32 x = (m : ℚ) * (2 : ℚ) ^ (e - 23) := by
  have hlog : Int.log 2 x = e := by
    apply le_antisymm
    · have := (Int.lt_zpow_iff_log_lt (b := 2) (by norm_num) hx (x := e + 1)).mp
        (by simpa using h2)
      omega
    · exact (Int.zpow_le_iff_le_log (b := 2) (by norm_num) hx).mp (by simpa using h1)
  have hk : ulpExponent x = e - 23 := by
    unfold ulpExponent
    rw [abs_of_pos hx, hlog]
    exact max_eq_left (by omega)
  unfold roundF32
  rw [hk]
  congr 1
  norm_cast
  unfold roundHalfEven
  simp only
  by_cases hlow : x / (2 : ℚ) ^ (e - 23) < (m : ℚ)
  · have hfl : ⌊x / (2 : ℚ) ^ (e - 23)⌋ = m - 1 := by
      rw [Int.floor_eq_iff]
      push_cast
      constructor <;> linarith
    rw [hfl]
    push_cast
    rw [if_neg (by linarith), if_pos (by linarith)]
    omega
  · have hfl : ⌊x / (2 : ℚ) ^ (e - 23)⌋ = m := by
      rw [Int.floor_eq_iff]
      constructor <;> linarith
    rw [hfl, if_pos (by linarith)]

theorem f32_milli : roundF32 (1 / 1000) = 8589935 / 8589934592 := by
  rw [roundF32_eq_of_bounds (-10) 8589935] <;> norm_num

theorem f32_sixtieth : roundF32 (1 / 60) = 8947849 / 536870912 := by
  rw [roundF32_eq_of_bounds (-6) 8947849] <;> norm_num

theorem f32_ceiling : roundF32 (300 * (8589935 / 8589934592)) = 5033165 / 16777216 := by
  rw [roundF32_eq_of_bounds (-2) 10066330] <;> norm_num

theorem roundF32_zero : roundF32 0 = 0 :=
  le_antisymm (roundF32_nonpos (le_refl _)) (roundF32_nonneg (le_refl _))

theorem roundF32_five_thousand : roundF32 5000 = 5000 := by
  rw [roundF32_eq_of_bounds 12 10240000] <;> norm_num

/-! ## The frame loop -/

theorem stdMin_eq_min (a b : ℚ) : stdMin a b = min a b := by
  unfold stdMin
  by_cases h : b < a
  · rw [if_pos h, min_eq_right (le_of_lt h)]
  · rw [if_neg h, min_eq_left (not_lt.mp h)]

theorem iteration_eq (s : Implementation) (f : Frame) :
    iteration s f =
      if (afterTiming s f).mUpdater = true then
        ((performCalls (afterTiming s f) f.calls).1,
          loopHead f ++ Effect.update (afterTiming s f).mLastFrameSeconds ::
            (performCalls (afterTiming s f) f.calls).2)
      else (afterTiming s f, loopHead f) := rfl

theorem afterTiming_fields (s : Implementation) (f : Frame) :
    (afterTiming s f).mLastFrameSeconds =
      roundF32 (min (roundF32 (roundF32 (f.ticks : ℚ) - s.mElapsedTicks)) 300 *
        (8589935 / 8589934592)) ∧
    (afterTiming s f).mElapsedTicks = roundF32 (f.ticks : ℚ) ∧
    (afterTiming s f).mUpdater = s.mUpdater ∧
    (afterTiming s f).mQuit = (ParseEvents s f.events).mQuit := by
  obtain ⟨h1, _, h3⟩ := ParseEvents_timing f.events s
  refine ⟨?_, rfl, h3, rfl⟩
  show roundF32 (stdMin (roundF32 (roundF32 (f.ticks : ℚ) -
    (ParseEvents s f.events).mElapsedTicks)) MaxFrameTicks * roundF32 (1 / 1000)) = _
  rw [h1, stdMin_eq_min, f32_milli]
  rfl

/-- The clamp in binary32: whatever is clamped to 300 ticks and scaled by
`0.001f` rounds to at most `0.3f`. -/
theorem roundF32_clamped_le (d : ℚ) :
    roundF32 (min d 300 * (8589935 / 8589934592)) ≤ 5033165 / 16777216 := by
  rw [← f32_ceiling]
  apply roundF32_mono_of_nonneg (by norm_num)
  have h : min d 300 ≤ 300 := min_le_right _ _
  exact mul_le_mul_of_nonneg_right h (by norm_num)

theorem afterTiming_seconds_le (s : Implementation) (f : Frame) :
    (afterTiming s f).mLastFrameSeconds ≤ 5033165 / 16777216 := by
  rw [(afterTiming_fields s f).1]
  exact roundF32_clamped_le _

theorem performCall_state (s : Implementation) (call : EngineCall) :
    (performCall s call).1 = if call = EngineCall.Quit then Quit s else s := by
  cases call <;> simp [performCall]

theorem performCall_effects (s : Implementation) (call : EngineCall) :
    ∀ e ∈ (performCall s call).2, e.isBatch = true := by
  cases call <;> simp [performCall, Effect.isBatch]

theorem Quit_Quit (s : Implementation) : Quit (Quit s) = Quit s := rfl

theorem performCalls_state (calls : List EngineCall) :
    ∀ s : Implementation,
      (performCalls s calls).1 = if EngineCall.Quit ∈ calls then Quit s else s := by
  induction calls with
  | nil => intro s; simp [performCalls]
  | cons call calls ih =>
    intro s
    simp only [performCalls, ih, performCall_state, List.mem_cons]
    by_cases h1 : call = EngineCall.Quit
    · subst h1
      by_cases h2 : EngineCall.Quit ∈ calls <;> simp [h2, Quit_Quit]
    · have h1b : ¬ EngineCall.Quit = call := fun h => h1 h.symm
      simp [h1, h1b]

theorem performCalls_effects (calls : List EngineCall) :
    ∀ (s : Implementation), ∀ e ∈ (performCalls s calls).2, e.isBatch = true := by
  induction calls with
  | nil => intro s e he; simp [performCalls] at he
  | cons call calls ih =>
    intro s e he
    simp only [performCalls, List.mem_append] at he
    rcases he with h | h
    · exact performCall_effects s call e h
    · exact ih _ e h

theorem Quit_fields (s : Implementation) :
    (Quit s).mQuit = true ∧ (Quit s).mLastFrameSeconds = s.mLastFrameSeconds ∧
    (Quit s).mUpdater = s.mUpdater ∧ (Quit s).mElapsedTicks = s.mElapsedTicks :=
  ⟨rfl, rfl, rfl, rfl⟩

theorem performCalls_fields (s : Implementation) (calls : List EngineCall) :
    (performCalls s calls).1.mLastFrameSeconds = s.mLastFrameSeconds ∧
    (performCalls s calls).1.mUpdater = s.mUpdater ∧
    ((performCalls s calls).1.mQuit = true ↔ s.mQuit = true ∨ EngineCall.Quit ∈ calls) := by
  rw [performCalls_state]
  by_cases h : EngineCall.Quit ∈ calls
  · simp [h, Quit]
  · simp [h]

theorem iteration_fields (s : Implementation) (f : Frame) :
    (iteration s f).1.mLastFrameSeconds =
      roundF32 (min (roundF32 (roundF32 (f.ticks : ℚ) - s.mElapsedTicks)) 300 *
        (8589935 / 8589934592)) ∧
    (iteration s f).1.mUpdater = s.mUpdater ∧
    ((iteration s f).1.mQuit = true ↔
      s.mQuit = true ∨ (∃ e ∈ f.events, e.type = SDL_QUIT ∨ e.type = SDL_KEYDOWN) ∨
        (s.mUpdater = true ∧ EngineCall.Quit ∈ f.calls)) := by
  obtain ⟨a1, _, a3, a4⟩ := afterTiming_fields s f
  obtain ⟨p1, p2, p3⟩ := performCalls_fields (afterTiming s f) f.calls
  rw [iteration_eq]
  by_cases hu : (afterTiming s f).mUpdater = true
  · rw [if_pos hu]
    refine ⟨p1.trans a1, p2.trans a3, ?_⟩
    show (performCalls (afterTiming s f) f.calls).1.mQuit = true ↔ _
    rw [p3, a4, ParseEvents_mQuit, ← a3]
    simp only [hu, true_and]
    exact or_assoc
  · rw [if_neg hu]
    refine ⟨a1, a3, ?_⟩
    show (afterTiming s f).mQuit = true ↔ _
    have hs : s.mUpdater = false := by rw [← a3]; simpa using hu
    rw [a4, ParseEvents_mQuit, hs]
    simp

theorem iteration_update_seconds (s : Implementation) (f : Frame) (sec : ℚ)
    (h : Effect.update sec ∈ (iteration s f).2) : sec ≤ 5033165 / 16777216 := by
  rw [iteration_eq] at h
  by_cases hu : (afterTiming s f).mUpdater = true
  · rw [if_pos hu] at h
    simp only [loopHead, List.mem_append, List.mem_cons, List.mem_singleton] at h
    rcases h with h | h | h
    · simp at h
    · cases h
      exact afterTiming_seconds_le s f
    · have := performCalls_effects f.calls (afterTiming s f) _ h
      simp [Effect.isBatch] at this
  · rw [if_neg hu] at h
    simp [loopHead] at h

theorem Implementation.Start_of_quit (s : Implementation) (frames : List Frame)
    (h : s.mQuit = true) : Implementation.Start s frames = ⟨s, [], 0⟩ := by
  cases frames with
  | nil => rfl
  | cons f frames => simp [Implementation.Start, h]

theorem Implementation.Start_cons_of_running (s : Implementation) (f : Frame)
    (frames : List Frame) (h : s.mQuit = false) :
    Implementation.Start s (f :: frames) =
      ⟨(Implementation.Start (iteration s f).1 frames).state,
        (iteration s f).2 ++ (Implementation.Start (iteration s f).1 frames).trace,
        (Implementation.Start (iteration s f).1 frames).iterations + 1⟩ := by
  simp [Implementation.Start, h]

/-- The clamp is an invariant of the loop: the stored duration and every
duration shown to the callback stay at or below `0.3f`. -/
theorem Implementation.Start_seconds_le (frames : List Frame) :
    ∀ s : Implementation, s.mLastFrameSeconds ≤ 5033165 / 16777216 →
      (Implementation.Start s frames).state.mLastFrameSeconds ≤ 5033165 / 16777216 ∧
      ∀ sec, Effect.update sec ∈ (Implementation.Start s frames).trace →
        sec ≤ 5033165 / 16777216 := by
  induction frames with
  | nil => intro s hs; exact ⟨hs, by intro sec h; simp [Implementation.Start] at h⟩
  | cons f frames ih =>
    intro s hs
    by_cases hq : s.mQuit = true
    · rw [Implementation.Start_of_quit s _ hq]
      exact ⟨hs, by intro sec h; simp at h⟩
    · have hq2 : s.mQuit = false := by simpa using hq
      rw [Implementation.Start_cons_of_running s f frames hq2]
      have hit : (iteration s f).1.mLastFrameSeconds ≤ 5033165 / 16777216 := by
        rw [(iteration_fields s f).1]
        exact roundF32_clamped_le _
      obtain ⟨h1, h2⟩ := ih (iteration s f).1 hit
      refine ⟨h1, ?_⟩
      intro sec hsec
      rcases List.mem_append.mp hsec with h | h
      · exact iteration_update_seconds s f sec h
      · exact h2 sec h

theorem iteration_mElapsedTicks (s : Implementation) (f : Frame) :
    (iteration s f).1.mElapsedTicks = roundF32 (f.ticks : ℚ) := by
  obtain ⟨_, a2, _, _⟩ := afterTiming_fields s f
  rw [iteration_eq]
  by_cases hu : (afterTiming s f).mUpdater = true
  · rw [if_pos hu, performCalls_state]
    by_cases hq : EngineCall.Quit ∈ f.calls
    · rw [if_pos hq]; exact a2
    · rw [if_neg hq]; exact a2
  · rw [if_neg hu]; exact a2

theorem updateSeconds_append (l1 l2 : List Effect) :
    updateSeconds (l1 ++ l2) = updateSeconds l1 ++ updateSeconds l2 := by
  simp [updateSeconds, List.filterMap_append]

theorem updateSeconds_of_isBatch (l : List Effect) (h : ∀ e ∈ l, e.isBatch = true) :
    updateSeconds l = [] := by
  unfold updateSeconds
  rw [List.filterMap_eq_nil_iff]
  intro e he
  have := h e he
  cases e <;> simp_all [Effect.isBatch]

theorem iteration_updateSeconds (s : Implementation) (f : Frame) (hu : s.mUpdater = true) :
    updateSeconds (iteration s f).2 = [(iteration s f).1.mLastFrameSeconds] := by
  have hu2 : (afterTiming s f).mUpdater = true := (afterTiming_fields s f).2.2.1.trans hu
  rw [iteration_eq, if_pos hu2]
  simp only
  rw [(performCalls_fields (afterTiming s f) f.calls).1, updateSeconds_append]
  have h1 : updateSeconds (loopHead f) = [] := rfl
  have h2 : updateSeconds (Effect.update (afterTiming s f).mLastFrameSeconds ::
      (performCalls (afterTiming s f) f.calls).2) =
      [(afterTiming s f).mLastFrameSeconds] := by
    have := updateSeconds_of_isBatch _ (performCalls_effects f.calls (afterTiming s f))
    simp only [updateSeconds, List.filterMap_cons] at this ⊢
    rw [this]
  rw [h1, h2]
  rfl

/-- The durations shown to the callback during a run are the prescribed ones
for the clock readings of the iterations performed, starting from the reading
stored in the state; the state ends with the last of them. -/
theorem Implementation.Start_durations (frames : List Frame) :
    ∀ s : Implementation, s.mUpdater = true →
      updateSeconds (Implementation.Start s frames).trace =
        frameDurations s.mElapsedTicks
          ((frames.take (Implementation.Start s frames).iterations).map Frame.ticks) ∧
      (Implementation.Start s frames).state.mLastFrameSeconds =
        ((frameDurations s.mElapsedTicks
          ((frames.take (Implementation.Start s frames).iterations).map
            Frame.ticks)).getLast?).getD s.mLastFrameSeconds := by
  induction frames with
  | nil => intro s _; exact ⟨rfl, rfl⟩
  | cons f frames ih =>
    intro s hu
    by_cases hq : s.mQuit = true
    · rw [Implementation.Start_of_quit s _ hq]
      exact ⟨rfl, rfl⟩
    · have hq2 : s.mQuit = false := by simpa using hq
      rw [Implementation.Start_cons_of_running s f frames hq2]
      obtain ⟨h1, h2⟩ := ih (iteration s f).1 ((iteration_fields s f).2.1.trans hu)
      simp only [List.take_succ_cons, List.map_cons, frameDurations]
      rw [iteration_mElapsedTicks] at h1 h2
      refine ⟨?_, ?_⟩
      · rw [updateSeconds_append, iteration_updateSeconds s f hu, h1, (iteration_fields s f).1]
        rfl
      · rw [h2, (iteration_fields s f).1]
        cases frameDurations (roundF32 (f.ticks : ℚ))
            ((frames.take (Implementation.Start (iteration s f).1 frames).iterations).map
              Frame.ticks) with
        | nil => rfl
        | cons d ds =>
          rw [List.getLast?_cons_cons]
          cases hl : (d :: ds).getLast? with
          | none => simp at hl
          | some v => rfl

/-- A run of one frame from a state that is not stopped. -/
theorem Start_singleton (s : Implementation) (f : Frame) (h : s.mQuit = false) :
    (Start s [f]).state = (iteration { s with mUpdater := true } f).1 ∧
    (Start s [f]).trace = Effect.showWindow :: (iteration { s with mUpdater := true } f).2 := by
  have hq : ({ s with mUpdater := true } : Implementation).mQuit = false := h
  unfold Start
  rw [Implementation.Start_cons_of_running _ f [] hq]
  simp [Implementation.Start]

/-- The duration stored by the iteration that follows a stall of 5000 ticks. -/
theorem stall_seconds :
    (iteration { Implementation.new 0 with mUpdater := true } stallFrame).1.mLastFrameSeconds =
      5033165 / 16777216 := by
  rw [(iteration_fields _ stallFrame).1]
  have h0 : ({ Implementation.new 0 with mUpdater := true } : Implementation).mElapsedTicks =
      0 := by
    show roundF32 ((0 : ℕ) : ℚ) = 0
    rw [Nat.cast_zero, roundF32_zero]
  have h1 : ((stallFrame.ticks : ℕ) : ℚ) = 5000 := by
    show ((5000 : ℕ) : ℚ) = 5000
    norm_num
  rw [h0, h1, sub_zero, roundF32_five_thousand, roundF32_five_thousand,
    show min (5000 : ℚ) 300 = 300 from by norm_num]
  exact f32_ceiling

/-- C4, refuted as stated: after a stall of 5000 ticks the engine stores, and
`GetLastFrameSeconds` returns, the binary32 product `300.0f * 0.001f`, which is
`5033165 / 2^24` and lies above 3/10; and the duration stored at construction
is the binary32 quotient `1.0f / 60.0f`, which is not 1/60. -/
theorem frame_duration_exceeds_three_tenths_counterexample :
    GetLastFrameSeconds (Start (Implementation.new 0) [stallFrame]).state =
      5033165 / 16777216 ∧
    (3 / 10 : ℚ) < 5033165 / 16777216 ∧
    GetLastFrameSeconds (Implementation.new 0) ≠ 1 / 60 ∧
    ¬ (∀ (ticks : Nat) (frames : List Frame),
        GetLastFrameSeconds (Start (Implementation.new ticks) frames).state ≤ 3 / 10) := by
  have hval : GetLastFrameSeconds (Start (Implementation.new 0) [stallFrame]).state =
      5033165 / 16777216 := by
    unfold GetLastFrameSeconds
    rw [(Start_singleton (Implementation.new 0) stallFrame rfl).1]
    exact stall_seconds
  refine ⟨hval, by norm_num, ?_, ?_⟩
  · show roundF32 (1 / 60) ≠ 1 / 60
    rw [f32_sixtieth]
    norm_num
  · intro h
    have h2 := h 0 [stallFrame]
    rw [hval] at h2
    norm_num at h2

/-- C4, amended: the constructor stores the binary32 clock reading and the
duration `1.0f / 60.0f` (`8947849 / 2^29`); every iteration stores the binary32
clock reading and the duration `min(current - previous, 300) * 0.001` computed
in binary32 from the reading stored before; in a run from construction the
durations shown to the update callback are exactly those prescribed for the
successive clock readings, and the state ends with the last of them; and the
duration returned by `GetLastFrameSeconds`, like every duration shown to the
callback, never exceeds `0.3f` (`5033165 / 2^24`), however far apart the
readings. -/
theorem frame_duration_clamped_f32 :
    (∀ ticks : Nat,
      (Implementation.new ticks).mElapsedTicks = roundF32 (ticks : ℚ) ∧
      GetLastFrameSeconds (Implementation.new ticks) = 8947849 / 536870912) ∧
    (∀ (s : Implementation) (f : Frame),
      (iteration s f).1.mElapsedTicks = roundF32 (f.ticks : ℚ) ∧
      GetLastFrameSeconds (iteration s f).1 =
        roundF32 (min (roundF32 (roundF32 (f.ticks : ℚ) - s.mElapsedTicks)) 300 *
          (8589935 / 8589934592))) ∧
    (∀ (ticks : Nat) (frames : List Frame),
      updateSeconds (Start (Implementation.new ticks) frames).trace =
        frameDurations (roundF32 (ticks : ℚ))
          ((frames.take (Start (Implementation.new ticks) frames).iterations).map
            Frame.ticks) ∧
      GetLastFrameSeconds (Start (Implementation.new ticks) frames).state =
        ((frameDurations (roundF32 (ticks : ℚ))
          ((frames.take (Start (Implementation.new ticks) frames).iterations).map
            Frame.ticks)).getLast?).getD (8947849 / 536870912)) ∧
    (∀ (ticks : Nat) (frames : List Frame),
      GetLastFrameSeconds (Start (Implementation.new ticks) frames).state ≤
        5033165 / 16777216 ∧
      ∀ sec, Effect.update sec ∈ (Start (Implementation.new ticks) frames).trace →
        sec ≤ 5033165 / 16777216) := by
  refine ⟨fun ticks => ⟨rfl, f32_sixtieth⟩,
    fun s f => ⟨iteration_mElapsedTicks s f, (iteration_fields s f).1⟩, ?_, ?_⟩
  · intro ticks frames
    have hu : ({ Implementation.new ticks with mUpdater := true } :
        Implementation).mUpdater = true := rfl
    obtain ⟨h1, h2⟩ := Implementation.Start_durations frames _ hu
    refine ⟨?_, ?_⟩
    · show updateSeconds (Effect.showWindow ::
        (Implementation.Start { Implementation.new ticks with mUpdater := true }
          frames).trace) = _
      have hshow : ∀ l : List Effect, updateSeconds (Effect.showWindow :: l) =
          updateSeconds l := fun l => rfl
      rw [hshow]
      exact h1
    · rw [← f32_sixtieth]
      exact h2
  · intro ticks frames
    have h0 : ({ Implementation.new ticks with mUpdater := true } :
        Implementation).mLastFrameSeconds ≤ 5033165 / 16777216 := by
      show roundF32 (1 / 60) ≤ 5033165 / 16777216
      rw [f32_sixtieth]
      norm_num
    obtain ⟨h1, h2⟩ := Implementation.Start_seconds_le frames _ h0
    refine ⟨h1, ?_⟩
    intro sec hsec
    rcases List.mem_cons.mp hsec with h | h
    · cases h
    · exact h2 sec h

/-- Witness for amended C4: after a stall of 5000 ticks the callback is shown
exactly `0.3f`, which the bound admits. -/
theorem frame_duration_clamped_f32_witness :
    Effect.update (5033165 / 16777216) ∈ (Start (Implementation.new 0) [stallFrame]).trace ∧
    (5033165 / 16777216 : ℚ) ≤ 5033165 / 16777216 := by
  have hu : ({ Implementation.new 0 with mUpdater := true } : Implementation).mUpdater =
      true := rfl
  have hsec := iteration_updateSeconds _ stallFrame hu
  rw [stall_seconds] at hsec
  have hmem : Effect.update (5033165 / 16777216) ∈
      (Start (Implementation.new 0) [stallFrame]).trace := by
    rw [(Start_singleton (Implementation.new 0) stallFrame rfl).2]
    apply List.mem_cons_of_mem
    have hin : (5033165 / 16777216 : ℚ) ∈
        updateSeconds (iteration { Implementation.new 0 with mUpdater := true }
          stallFrame).2 := by
      rw [hsec]
      exact List.mem_singleton.mpr rfl
    unfold updateSeconds at hin
    obtain ⟨e, he, hsome⟩ := List.mem_filterMap.mp hin
    cases e <;> simp at hsome
    rw [hsome] at he
    exact he
  exact ⟨hmem, (frame_duration_clamped_f32.2.2.2 0 [stallFrame]).2 _ hmem⟩

theorem Implementation.Start_mUpdater (frames : List Frame) :
    ∀ s : Implementation, (Implementation.Start s frames).state.mUpdater = s.mUpdater := by
  induction frames with
  | nil => intro s; rfl
  | cons f frames ih =>
    intro s
    by_cases hq : s.mQuit = true
    · rw [Implementation.Start_of_quit s _ hq]
    · have hq2 : s.mQuit = false := by simpa using hq
      rw [Implementation.Start_cons_of_running s f frames hq2]
      exact (ih _).trans (iteration_fields s f).2.1

/-- A run that is still going after the frames `pre` has used all of them, and
continues on further frames from the state it reached. -/
theorem Implementation.Start_append_of_running (pre : List Frame) :
    ∀ (s : Implementation) (rest : List Frame),
      (Implementation.Start s pre).state.mQuit = false →
      (Implementation.Start s pre).iterations = pre.length ∧
      Implementation.Start s (pre ++ rest) =
        ⟨(Implementation.Start (Implementation.Start s pre).state rest).state,
          (Implementation.Start s pre).trace ++
            (Implementation.Start (Implementation.Start s pre).state rest).trace,
          pre.length + (Implementation.Start (Implementation.Start s pre).state rest).iterations⟩ := by
  induction pre with
  | nil =>
    intro s rest _
    exact ⟨rfl, by simp [Implementation.Start]⟩
  | cons f pre ih =>
    intro s rest hrun
    by_cases hq : s.mQuit = true
    · rw [Implementation.Start_of_quit s _ hq] at hrun
      rw [hq] at hrun
      cases hrun
    · have hq2 : s.mQuit = false := by simpa using hq
      rw [Implementation.Start_cons_of_running s f pre hq2] at hrun ⊢
      obtain ⟨h1, h2⟩ := ih (iteration s f).1 rest hrun
      refine ⟨by simp [h1], ?_⟩
      rw [List.cons_append, Implementation.Start_cons_of_running s f _ hq2, h2]
      simp only [List.append_assoc, List.length_cons, Run.mk.injEq, true_and]
      omega

theorem iteration_updates (s : Implementation) (f : Frame) (hu : s.mUpdater = true) :
    ((iteration s f).2.filter Effect.isUpdate).length = 1 := by
  have hu2 : (afterTiming s f).mUpdater = true := (afterTiming_fields s f).2.2.1.trans hu
  have hnone : (performCalls (afterTiming s f) f.calls).2.filter Effect.isUpdate = [] := by
    rw [List.filter_eq_nil_iff]
    intro e he
    have := performCalls_effects f.calls (afterTiming s f) e he
    cases e <;> simp_all [Effect.isBatch, Effect.isUpdate]
  rw [iteration_eq, if_pos hu2]
  simp [loopHead, List.filter, Effect.isUpdate, hnone]

/-- With a registered callback every iteration invokes it exactly once. -/
theorem Implementation.Start_updates (frames : List Frame) :
    ∀ s : Implementation, s.mUpdater = true →
      ((Implementation.Start s frames).trace.filter Effect.isUpdate).length =
        (Implementation.Start s frames).iterations := by
  induction frames with
  | nil => intro s _; rfl
  | cons f frames ih =>
    intro s hu
    by_cases hq : s.mQuit = true
    · rw [Implementation.Start_of_quit s _ hq]; rfl
    · have hq2 : s.mQuit = false := by simpa using hq
      rw [Implementation.Start_cons_of_running s f frames hq2]
      simp only [List.filter_append, List.length_append]
      rw [iteration_updates s f hu, ih _ ((iteration_fields s f).2.1.trans hu)]
      omega

/-- The run in which the callback of the iteration after `pre` calls `Quit`. -/
theorem Implementation.Start_quit_in_update (s : Implementation) (pre post : List Frame)
    (f : Frame) (hu : s.mUpdater = true)
    (hrun : (Implementation.Start s pre).state.mQuit = false)
    (hq : EngineCall.Quit ∈ f.calls) :
    Implementation.Start s (pre ++ f :: post) =
      ⟨(iteration (Implementation.Start s pre).state f).1,
        (Implementation.Start s pre).trace ++ (iteration (Implementation.Start s pre).state f).2,
        pre.length + 1⟩ ∧
    (iteration (Implementation.Start s pre).state f).1.mQuit = true := by
  have hst : (Implementation.Start s pre).state.mUpdater = true :=
    (Implementation.Start_mUpdater pre s).trans hu
  have hquit : (iteration (Implementation.Start s pre).state f).1.mQuit = true :=
    (iteration_fields _ f).2.2.mpr (Or.inr (Or.inr ⟨hst, hq⟩))
  refine ⟨?_, hquit⟩
  rw [(Implementation.Start_append_of_running pre s (f :: post) hrun).2,
    Implementation.Start_cons_of_running _ f post hrun,
    Implementation.Start_of_quit _ post hquit]
  simp

/-- C5: when the loop is still running after `k - 1` iterations and the update
callback of iteration `k` calls `Quit()`, the loop completes iteration `k` and
stops: the run has exactly `k` iterations and `k` callback invocations whatever
frames would follow, and after the `k`-th invocation the trace holds nothing
but the sprite-batch calls of that same callback (no swap, clear or event
drain). -/
theorem quit_in_update_ends_loop (s : Implementation) (pre post : List Frame) (f : Frame)
    (hrun : (Start s pre).state.mQuit = false) (hq : EngineCall.Quit ∈ f.calls) :
    (Start s (pre ++ f :: post)).state.mQuit = true ∧
    (Start s (pre ++ f :: post)).iterations = pre.length + 1 ∧
    ((Start s (pre ++ f :: post)).trace.filter Effect.isUpdate).length = pre.length + 1 ∧
    Start s (pre ++ f :: post) = Start s (pre ++ [f]) ∧
    ∃ before sec after,
      (Start s (pre ++ f :: post)).trace = before ++ Effect.update sec :: after ∧
      (before.filter Effect.isUpdate).length = pre.length ∧
      ∀ e ∈ after, e.isBatch = true := by
  have hu : ({ s with mUpdater := true } : Implementation).mUpdater = true := rfl
  have hrun2 : (Implementation.Start { s with mUpdater := true } pre).state.mQuit = false :=
    hrun
  obtain ⟨h1, h2⟩ := Implementation.Start_quit_in_update _ pre post f hu hrun2 hq
  obtain ⟨g1, _⟩ := Implementation.Start_quit_in_update _ pre [] f hu hrun2 hq
  have hiter := (Implementation.Start_append_of_running pre _ [] hrun2).1
  have hupd := Implementation.Start_updates pre _ hu
  have hst : (Implementation.Start { s with mUpdater := true } pre).state.mUpdater = true :=
    (Implementation.Start_mUpdater pre _).trans hu
  have hat : (afterTiming (Implementation.Start { s with mUpdater := true } pre).state
      f).mUpdater = true := (afterTiming_fields _ f).2.2.1.trans hst
  have hshow : ∀ l : List Effect,
      (Effect.showWindow :: l).filter Effect.isUpdate = l.filter Effect.isUpdate := by
    intro l
    simp [List.filter, Effect.isUpdate]
  simp only [Start]
  rw [h1, g1]
  refine ⟨h2, rfl, ?_, rfl, ?_⟩
  · rw [hshow]
    simp only [List.filter_append, List.length_append]
    rw [hupd, hiter, iteration_updates _ f hst]
  · refine ⟨Effect.showWindow ::
        ((Implementation.Start { s with mUpdater := true } pre).trace ++ loopHead f),
      (afterTiming (Implementation.Start { s with mUpdater := true } pre).state
        f).mLastFrameSeconds,
      (performCalls (afterTiming (Implementation.Start { s with mUpdater := true } pre).state f)
        f.calls).2, ?_, ?_, performCalls_effects _ _⟩
    · simp only [iteration_eq, if_pos hat, List.append_assoc, List.cons_append]
    · rw [hshow]
      simp only [List.filter_append, List.length_append]
      rw [hupd, hiter]
      simp [loopHead, List.filter, Effect.isUpdate]

/-- Witness for C5: the callback quits in the second iteration; a third frame
is supplied and never used. -/
theorem quit_in_update_ends_loop_witness :
    (Start (Implementation.new 0) ([idleFrame] ++ quitFrame :: [idleFrame])).iterations = 2 ∧
    (Start (Implementation.new 0) ([idleFrame] ++ quitFrame :: [idleFrame])).state.mQuit =
      true := by
  have hrun : (Start (Implementation.new 0) [idleFrame]).state.mQuit = false := by
    simp [Start, Implementation.Start, iteration, Implementation.new, idleFrame, ParseEvents,
      performCalls, handleEvent, SDL_MOUSEMOTION, SDL_QUIT, SDL_KEYDOWN, SDL_MOUSEBUTTONDOWN,
      SDL_MOUSEBUTTONUP]
  have h := quit_in_update_ends_loop (Implementation.new 0) [idleFrame] [idleFrame] quitFrame
    hrun (by simp [quitFrame])
  exact ⟨h.2.1, h.1⟩

theorem performCall_mQuit (s : Implementation) (call : EngineCall) (h : s.mQuit = true) :
    (performCall s call).1.mQuit = true := by
  rw [performCall_state]
  by_cases hc : call = EngineCall.Quit
  · rw [if_pos hc]; rfl
  · rw [if_neg hc]; exact h

theorem ParseEvents_of_unknown (events : List SDL_Event) :
    ∀ s : Implementation,
      (∀ e ∈ events, e.type ≠ SDL_QUIT ∧ e.type ≠ SDL_KEYDOWN ∧
        e.type ≠ SDL_MOUSEBUTTONDOWN ∧ e.type ≠ SDL_MOUSEBUTTONUP ∧
        e.type ≠ SDL_MOUSEMOTION) →
      ParseEvents s events = s := by
  induction events with
  | nil => intro s _; rfl
  | cons e events ih =>
    intro s h
    obtain ⟨h1, h2, h3, h4, h5⟩ := h e (List.mem_cons_self _ _)
    rw [ParseEvents_cons, handleEvent_of_unknown s e h1 h2 h3 h4 h5]
    exact ih s (fun e2 he2 => h e2 (List.mem_cons_of_mem _ he2))

/-- C10: after one `ParseEvents` call the quit flag is set exactly when it was
set before or the drained sequence holds an `SDL_QUIT` or `SDL_KEYDOWN` event;
events of unknown type change no field of the state; `ParseEvents`, `Quit`,
every engine call of the callback and every loop iteration keep a set flag set;
and a `Start` entered with the flag set shows the window and performs no
iteration. -/
theorem quit_flag_terminal :
    (∀ (s : Implementation) (events : List SDL_Event),
      (ParseEvents s events).mQuit = true ↔
        s.mQuit = true ∨ ∃ e ∈ events, e.type = SDL_QUIT ∨ e.type = SDL_KEYDOWN) ∧
    (∀ (s : Implementation) (events : List SDL_Event),
      (∀ e ∈ events, e.type ≠ SDL_QUIT ∧ e.type ≠ SDL_KEYDOWN ∧
        e.type ≠ SDL_MOUSEBUTTONDOWN ∧ e.type ≠ SDL_MOUSEBUTTONUP ∧
        e.type ≠ SDL_MOUSEMOTION) →
      ParseEvents s events = s) ∧
    (∀ (s : Implementation) (events : List SDL_Event), s.mQuit = true →
      (ParseEvents s events).mQuit = true) ∧
    (∀ s : Implementation, (Quit s).mQuit = true) ∧
    (∀ (s : Implementation) (call : EngineCall), s.mQuit = true →
      (performCall s call).1.mQuit = true) ∧
    (∀ (s : Implementation) (f : Frame), s.mQuit = true → (iteration s f).1.mQuit = true) ∧
    (∀ (s : Implementation) (frames : List Frame), s.mQuit = true →
      (Start s frames).iterations = 0 ∧ (Start s frames).trace = [Effect.showWindow] ∧
      (Start s frames).state.mQuit = true) := by
  refine ⟨fun s events => ParseEvents_mQuit events s,
    fun s events h => ParseEvents_of_unknown events s h,
    fun s events h => (ParseEvents_mQuit events s).mpr (Or.inl h),
    fun _ => rfl,
    performCall_mQuit,
    fun s f h => (iteration_fields s f).2.2.mpr (Or.inl h), ?_⟩
  intro s frames h
  have hq : ({ s with mUpdater := true } : Implementation).mQuit = true := h
  simp only [Start]
  rw [Implementation.Start_of_quit _ frames hq]
  exact ⟨rfl, rfl, h⟩

/-- Witness for C10: a mouse motion and an event of unknown type leave the flag
clear, a key-down sets it, and a `Start` entered after `Quit` does nothing. -/
theorem quit_flag_terminal_witness :
    ((ParseEvents (Implementation.new 0) [⟨SDL_MOUSEMOTION, 1, 2⟩, ⟨7, 0, 0⟩]).mQuit = true ↔
      (Implementation.new 0).mQuit = true ∨
        ∃ e ∈ [(⟨SDL_MOUSEMOTION, 1, 2⟩ : SDL_Event), ⟨7, 0, 0⟩],
          e.type = SDL_QUIT ∨ e.type = SDL_KEYDOWN) ∧
    ParseEvents (Implementation.new 0) [⟨7, 0, 0⟩] = Implementation.new 0 ∧
    (Start (Quit (Implementation.new 0)) [idleFrame]).iterations = 0 :=
  ⟨quit_flag_terminal.1 _ _,
    quit_flag_terminal.2.1 (Implementation.new 0) [⟨7, 0, 0⟩] (by decide),
    (quit_flag_terminal.2.2.2.2.2.2 (Quit (Implementation.new 0)) [idleFrame] rfl).1⟩

/-! ## Texture loading -/

/-- C8: the construction throws exactly when the image could not be decoded or
the decoded surface has a bytes-per-pixel other than 1, 3 or 4; surfaces of 1,
3 and 4 bytes per pixel are uploaded as (`GL_R8`, `GL_RED`), (`GL_RGB8`,
`GL_RGB`) and (`GL_RGBA8`, `GL_RGBA`); a surface of 2 bytes per pixel is rejected. -/
theorem SdlSurface_new_contract (filename : String) (loaded : Option SDL_Surface) :
    ((∃ msg, SdlSurface.new filename loaded = Except.error msg) ↔
      loaded = none ∨ ∃ surf, loaded = some surf ∧ surf.BytesPerPixel ≠ 1 ∧
        surf.BytesPerPixel ≠ 3 ∧ surf.BytesPerPixel ≠ 4) ∧
    (∀ surf, loaded = some surf → surf.BytesPerPixel = 1 →
      SdlSurface.new filename loaded = Except.ok ⟨GL_R8, surf.w, surf.h, GL_RED⟩) ∧
    (∀ surf, loaded = some surf → surf.BytesPerPixel = 3 →
      SdlSurface.new filename loaded = Except.ok ⟨GL_RGB8, surf.w, surf.h, GL_RGB⟩) ∧
    (∀ surf, loaded = some surf → surf.BytesPerPixel = 4 →
      SdlSurface.new filename loaded = Except.ok ⟨GL_RGBA8, surf.w, surf.h, GL_RGBA⟩) ∧
    (∀ surf, loaded = some surf → surf.BytesPerPixel = 2 →
      SdlSurface.new filename loaded = Except.error "Image with unknown channel profile") := by
  refine ⟨?_, ?_, ?_, ?_, ?_⟩
  · cases loaded with
    | none => simp [SdlSurface.new]
    | some surf =>
      simp only [SdlSurface.new]
      split_ifs <;> simp_all
  · intro surf hl h
    subst hl
    simp [SdlSurface.new, h]
  · intro surf hl h
    subst hl
    simp [SdlSurface.new, h]
  · intro surf hl h
    subst hl
    simp [SdlSurface.new, h]
  · intro surf hl h
    subst hl
    simp [SdlSurface.new, h]

/-- Witness for C8: a decoded 16-bit surface is rejected. -/
theorem SdlSurface_new_contract_witness :
    SdlSurface.new "Cell.dds" (some ⟨2, 64, 64⟩) =
      Except.error "Image with unknown channel profile" :=
  (SdlSurface_new_contract "Cell.dds" (some ⟨2, 64, 64⟩)).2.2.2.2 ⟨2, 64, 64⟩ rfl rfl

/-! ## Rendering -/

/-- C9, refuted as stated: two `Render` calls with different sprites and
different `x`, `y`, `rotation` issue the very same instance update, whose
position is not the `x`, `y` passed and whose rotation is not the `rotation`
passed, on the cell instance of the background batch. -/
theorem Render_uses_arguments_counterexample :
    RenderAt Sprite.SPRITE_BLUE 100 50 1 = RenderAt Sprite.SPRITE_CELL 0 0 0 ∧
    RenderAt Sprite.SPRITE_BLUE 100 50 1 =
      [BatchCall.updateInstance Image.IMAGE_BACKGROUND InstanceRef.mCell (368, 268) (64, 64) 45,
        BatchCall.flushBuffers Image.IMAGE_BACKGROUND,
        BatchCall.draw Image.IMAGE_BACKGROUND] ∧
    ((368 : ℚ), (268 : ℚ)) ≠ (100, 50) ∧ (45 : ℚ) ≠ 1 ∧
    ¬ (∀ (texture : Sprite) (x y rotation x2 y2 rotation2 : ℚ),
        (x, y, rotation) ≠ (x2, y2, rotation2) →
        RenderAt texture x y rotation ≠ RenderAt texture x2 y2 rotation2) := by
  refine ⟨rfl, ?_, ?_, ?_, ?_⟩
  · simp only [RenderAt, Render, WindowWidth, WindowHeight]
    norm_num
  · norm_num
  · norm_num
  · intro h
    exact h Sprite.SPRITE_BLUE 100 50 1 0 0 0 (by norm_num) rfl

/-- C9, amended: whatever the sprite and the transform (or `x`, `y`,
`rotation`), `Render` updates the cell instance of the background batch to the
fixed position (368, 268), size (64, 64) and rotation 45, then flushes and
draws that batch exactly once. -/
theorem Render_fixed_cell :
    (∀ (texture : Sprite) (transform : Mat4),
      Render texture transform =
        [BatchCall.updateInstance Image.IMAGE_BACKGROUND InstanceRef.mCell (368, 268) (64, 64) 45,
          BatchCall.flushBuffers Image.IMAGE_BACKGROUND,
          BatchCall.draw Image.IMAGE_BACKGROUND]) ∧
    (∀ (texture : Sprite) (x y rotation : ℚ),
      RenderAt texture x y rotation =
        [BatchCall.updateInstance Image.IMAGE_BACKGROUND InstanceRef.mCell (368, 268) (64, 64) 45,
          BatchCall.flushBuffers Image.IMAGE_BACKGROUND,
          BatchCall.draw Image.IMAGE_BACKGROUND]) := by
  constructor
  · intro texture transform
    simp only [Render, WindowWidth, WindowHeight]
    norm_num
  · intro texture x y rotation
    simp only [RenderAt, Render, WindowWidth, WindowHeight]
    norm_num

end King
